import Mathlib

/-!
Verification of the BitShares-Historical-Charts core against its specification.

This file gives a shallow embedding of the core algorithms of the repository:

* `tradesToCandles` (src/main.js, lines 103-186): the trade-to-OHLCV candle
  aggregator, embedded generically over any linearly ordered numeric type `α`
  (JS numbers support `Math.max`, `Math.min`, `+`, `0`; every claim about the
  aggregator is order/additive, so the embedding is parametric and witnesses
  instantiate `α := ℤ`).
* `queryElasticsearchWithPagination` (src/main.js, lines 214-261): the
  cursor-based pagination drain, with the network modelled as an oracle
  `backend : ℕ → Except String EsPage` giving the response to the k-th page
  request, and the ambient `loadingCandles` cancellation flag modelled as a
  predicate `flag : ℕ → Bool` sampled at each loop entry.  The embedding
  additionally returns the number of page requests issued, which instruments
  the observable `fetch` count of the source.
* `getObjects` (src/unnamed/part_000, lines 271-292): the chunked batch
  fetcher, with the underlying `query` RPC call modelled as an oracle
  per chunk.
* `_connectToNextNodeInternal` (src/unnamed/part_000, lines 619-678): one
  failover rotation pass over the node list, with connection success modelled
  as an oracle `succeeds : ℕ → Bool` per node index.  The wall-clock fields of
  the health record (`lastAttempted`, `lastSuccess`, `latency`) and the
  inter-attempt sleep are outside a pure embedding and are omitted; they do
  not influence any control flow.
* `getActiveInstance` / `_connectWithLock` / the connection queue
  (src/unnamed/part_000, lines 561-698): the single-flight connect path,
  embedded as the synchronous prefixes of the cooperative (single-threaded)
  JS event-loop execution, plus the completion handler that resolves or
  rejects the waiter queue.

JS `Array.prototype.sort` with a numeric comparator is a stable
comparison sort; any two stable comparison sorts agree extensionally, so it
is embedded as a structural stable insertion sort `jsSort` (the while loop of
the second aggregator pass is embedded with an explicit iteration budget
`fuel`, sized by the caller to the exact trip count of the source loop; the
theorems below prove the walk covers the whole span, certifying the budget).
-/

section CandleAggregator

variable {α : Type} [LinearOrder α] [Add α] [Zero α]

/-- One OHLCV candle, as built by `tradesToCandles` (src/main.js).  The JS
object field `open` is rendered `open_` because `open` is a Lean keyword. -/
structure Candle (α : Type) where
  timestamp : ℤ
  open_ : α
  high : α
  low : α
  close : α
  volume : α
deriving DecidableEq, Repr

/-- A trade tuple `[timestamp, price, volume]` as consumed by
`tradesToCandles`. -/
abbrev Trade (α : Type) : Type := ℤ × α × α

/-- Stable insertion of `x` into `l`: `x` goes after every leading `y` with
`le y x`.  Together with `jsSort` this is a stable comparison sort, the
extensional behaviour of JS `Array.prototype.sort` with a total comparator. -/
def jsInsert (le : β → β → Bool) (x : β) : List β → List β
  | [] => [x]
  | y :: ys => if le x y then x :: y :: ys else y :: jsInsert le x ys

/-- Stable sort by a boolean comparison, modelling
`[...trades].sort((a, b) => a[0] - b[0])` and the candle re-sort. -/
def jsSort (le : β → β → Bool) : List β → List β
  | [] => []
  | x :: xs => jsInsert le x (jsSort le xs)

/-- `Math.floor(timestamp / timeframeMs) * timeframeMs` — the bucket start of
a timestamp (`Int.fdiv` is floor division, as JS `Math.floor` of a quotient). -/
def bucketOf (timeframeMs : ℤ) (ts : ℤ) : ℤ :=
  (Int.fdiv ts timeframeMs) * timeframeMs

/-- `candleMap.get k` on the insertion-ordered association list embedding of
the JS `Map`. -/
def mapLookup (m : List (ℤ × Candle α)) (k : ℤ) : Option (Candle α) :=
  match m with
  | [] => none
  | (k', v) :: rest => if k' = k then some v else mapLookup rest k

/-- `candleMap.set k v`: overwrite in place if present, append otherwise
(JS `Map` keeps insertion order). -/
def mapSet (m : List (ℤ × Candle α)) (k : ℤ) (v : Candle α) :
    List (ℤ × Candle α) :=
  match m with
  | [] => [(k, v)]
  | (k', v') :: rest =>
      if k' = k then (k, v) :: rest else (k', v') :: mapSet rest k v

/-- The body of the first pass of `tradesToCandles` for one trade: bucket the
trade and create or update its candle (src/main.js lines 114-133). -/
def addTrade (timeframeMs : ℤ) (m : List (ℤ × Candle α)) (t : Trade α) :
    List (ℤ × Candle α) :=
  match mapLookup m (bucketOf timeframeMs t.1) with
  | none =>
      mapSet m (bucketOf timeframeMs t.1)
        ⟨bucketOf timeframeMs t.1, t.2.1, t.2.1, t.2.1, t.2.1, t.2.2⟩
  | some candle =>
      mapSet m (bucketOf timeframeMs t.1)
        ⟨candle.timestamp, candle.open_, max candle.high t.2.1,
          min candle.low t.2.1, t.2.1, candle.volume + t.2.2⟩

/-- The second (gap-filling) pass of `tradesToCandles` (src/main.js lines
144-183): walk `currentTime` from the first to the last populated bucket,
emitting the trade candle where one exists and a carry-forward (or, with no
carry value, an all-zero) synthetic candle otherwise.  `fuel` is the explicit
iteration budget of the source `while` loop (the caller passes its exact trip
count); the second component reports whether the all-zero fallback branch
(src/main.js lines 170-178, commented "shouldn't happen with real data") was
ever taken. -/
def fillLoop (timeframeMs : ℤ) (cwt : List (Candle α)) (lastTimestamp : ℤ) :
    ℕ → ℕ → ℤ → Option α → List (Candle α) × Bool
  | 0, _, _, _ => ([], false)
  | fuel + 1, currentIndex, currentTime, lastClose =>
      if currentTime ≤ lastTimestamp then
        match cwt.get? currentIndex with
        | some existingCandle =>
            if existingCandle.timestamp = currentTime then
              let rest := fillLoop timeframeMs cwt lastTimestamp fuel
                (currentIndex + 1) (currentTime + timeframeMs)
                (some existingCandle.close)
              (existingCandle :: rest.1, rest.2)
            else
              match lastClose with
              | some lc =>
                  let rest := fillLoop timeframeMs cwt lastTimestamp fuel
                    currentIndex (currentTime + timeframeMs) lastClose
                  (⟨currentTime, lc, lc, lc, lc, 0⟩ :: rest.1, rest.2)
              | none =>
                  let rest := fillLoop timeframeMs cwt lastTimestamp fuel
                    currentIndex (currentTime + timeframeMs) none
                  (⟨currentTime, 0, 0, 0, 0, 0⟩ :: rest.1, true)
        | none =>
            match lastClose with
            | some lc =>
                let rest := fillLoop timeframeMs cwt lastTimestamp fuel
                  currentIndex (currentTime + timeframeMs) lastClose
                (⟨currentTime, lc, lc, lc, lc, 0⟩ :: rest.1, rest.2)
            | none =>
                let rest := fillLoop timeframeMs cwt lastTimestamp fuel
                  currentIndex (currentTime + timeframeMs) none
                (⟨currentTime, 0, 0, 0, 0, 0⟩ :: rest.1, true)
      else ([], false)

/-- The candle list with trades, after the first pass and re-sort
(src/main.js lines 109-136). -/
def candlesWithTrades (trades : List (Trade α)) (timeframeMs : ℤ) :
    List (Candle α) :=
  jsSort (fun a b => decide (a.timestamp ≤ b.timestamp))
    (((jsSort (fun a b => decide (a.1 ≤ b.1)) trades).foldl
        (addTrade timeframeMs) []).map Prod.snd)

/-- `tradesToCandles(trades, timeframeSeconds)` (src/main.js lines 103-186).
The fuel passed to `fillLoop` is the exact trip count of the source `while`
loop: one iteration per bucket from the first to the last populated bucket. -/
def tradesToCandles (trades : List (Trade α)) (timeframeSeconds : ℤ) :
    List (Candle α) :=
  if trades.isEmpty then [] else
  match candlesWithTrades trades (timeframeSeconds * 1000) with
  | [] => []
  | first :: rest =>
      (fillLoop (timeframeSeconds * 1000) (first :: rest)
        (((first :: rest).getLastD first).timestamp)
        (((((first :: rest).getLastD first).timestamp - first.timestamp).fdiv
            (timeframeSeconds * 1000)).toNat + 1)
        0 first.timestamp none).1

/-- Companion of `tradesToCandles` exposing the instrumentation bit of
`fillLoop`: whether the all-zero fallback branch was taken. -/
def tradesToCandlesFallbackUsed (trades : List (Trade α))
    (timeframeSeconds : ℤ) : Bool :=
  if trades.isEmpty then false else
  match candlesWithTrades trades (timeframeSeconds * 1000) with
  | [] => false
  | first :: rest =>
      (fillLoop (timeframeSeconds * 1000) (first :: rest)
        (((first :: rest).getLastD first).timestamp)
        (((((first :: rest).getLastD first).timestamp - first.timestamp).fdiv
            (timeframeSeconds * 1000)).toNat + 1)
        0 first.timestamp none).2

end CandleAggregator

section PaginatedQueryEngine

/-- An Elasticsearch hit, reduced to the only field the pagination drain
itself inspects: its `sort` key (`hit.sort`, an array of numbers whose index
0 is the block-time used for cursoring and progress reporting). -/
structure EsHit where
  sort : List ℤ
deriving DecidableEq, Repr

/-- The slice of an Elasticsearch response body the drain inspects:
`data.hits.total.value` and `data.hits.hits`. -/
structure EsPage where
  total : ℕ
  hits : List EsHit
deriving DecidableEq, Repr

/-- `CHUNK_SIZE` (src/main.js line 215). -/
def CHUNK_SIZE : ℕ := 10000

/-- `queryElasticsearchWithPagination` (src/main.js lines 214-261), with the
network modelled as an oracle `backend k` for the k-th page request (an
`Except` error models a fetch rejection or a non-ok response status, both of
which the source turns into a thrown wrapped error) and the ambient
`loadingCandles` cancellation flag modelled as `flag k`, sampled at each
loop entry as the source does.  The loop state (`allResults`,
`lastSortValue`, `totalFetched`) is threaded explicitly; the `hasMore`
variable of the source is realised by returning instead of looping.  The
second component instruments the observable number of page requests
issued.  The `getPoolSwaps` drain of src/pools.js lines 3-101 is the same
loop without the flag conjunct. -/
def queryElasticsearchWithPagination (backend : ℕ → Except String EsPage)
    (flag : ℕ → Bool) (maxTotalResults : ℕ) (k : ℕ) (allResults : List EsHit)
    (lastSortValue : Option (List ℤ)) (totalFetched : ℕ) :
    Except String (List EsHit) × ℕ :=
  if totalFetched < maxTotalResults ∧ flag k = true then
    match backend k with
    | .error e => (.error ("Failed to fetch from Elasticsearch: " ++ e), 1)
    | .ok page =>
        if lastSortValue = none ∧ page.total = 0 then (.ok [], 1)
        else
          if page.hits.length < CHUNK_SIZE ∨
              maxTotalResults ≤ totalFetched + page.hits.length then
            (.ok (allResults ++ page.hits), 1)
          else
            ((queryElasticsearchWithPagination backend flag maxTotalResults
                (k + 1) (allResults ++ page.hits)
                (some ((page.hits.getLastD ⟨[]⟩).sort))
                (totalFetched + page.hits.length)).1,
              (queryElasticsearchWithPagination backend flag maxTotalResults
                (k + 1) (allResults ++ page.hits)
                (some ((page.hits.getLastD ⟨[]⟩).sort))
                (totalFetched + page.hits.length)).2 + 1)
  else (.ok allResults, 0)
termination_by maxTotalResults - totalFetched
decreasing_by
  have hC : CHUNK_SIZE = 10000 := rfl
  omega

end PaginatedQueryEngine

section BatchFetcher

variable {Obj : Type}

/-- `resultMap[id]` — JS object property read on the insertion-ordered
association-list embedding of a JS object. -/
def objLookup (m : List (String × Obj)) (k : String) : Option Obj :=
  match m with
  | [] => none
  | p :: rest => if p.1 = k then some p.2 else objLookup rest k

/-- `resultMap[id] = v` — JS object property write: overwrite in place when
the key exists, append otherwise. -/
def objSet (m : List (String × Obj)) (k : String) (v : Obj) :
    List (String × Obj) :=
  match m with
  | [] => [(k, v)]
  | p :: rest => if p.1 = k then (k, v) :: rest else p :: objSet rest k v

/-- The chunks `objectIds.slice(i, i + 90)` for `i = 0, 90, 180, ...` taken
by the `for` loop of `getObjects` (src/unnamed/part_000 line 275).  `fuel`
bounds the recursion; `chunks90` passes the list length, which suffices
because every step consumes at least one element. -/
def chunks90F : ℕ → List String → List (List String)
  | 0, _ => []
  | _ + 1, [] => []
  | fuel + 1, objId :: ids =>
      (objId :: ids).take 90 :: chunks90F fuel ((objId :: ids).drop 90)

def chunks90 (ids : List String) : List (List String) :=
  chunks90F ids.length ids

/-- The `chunk.forEach((id, idx) => ...)` merge body of `getObjects`
(src/unnamed/part_000 lines 279-284): for the id at position `idx`, copy
the chunk result entry into `resultMap` when it exists
(`idx < chunkResult.length`) and is non-null. -/
def processEntries (chunkResult : List (Option Obj)) :
    List (String × Obj) → List String → ℕ → List (String × Obj)
  | m, [], _ => m
  | m, objId :: restIds, idx =>
      match chunkResult.get? idx with
      | some (some v) =>
          processEntries chunkResult (objSet m objId v) restIds (idx + 1)
      | some none => processEntries chunkResult m restIds (idx + 1)
      | none => processEntries chunkResult m restIds (idx + 1)

/-- One chunk of `getObjects` (src/unnamed/part_000 lines 277-288): one
`query("database", ["get_objects", [chunk]])` RPC — the oracle `backend` —
merged on success; a chunk-level failure is caught, logged and skipped. -/
def processChunk (backend : List String → Except String (List (Option Obj)))
    (m : List (String × Obj)) (chunk : List String) : List (String × Obj) :=
  match backend chunk with
  | .error _ => m
  | .ok chunkResult => processEntries chunkResult m chunk 0

/-- `getObjects(objectIds)` (src/unnamed/part_000 lines 271-292): chunk the
ids by 90, issue one RPC per chunk, merge the non-null entries of the
successful chunks into one id-keyed mapping.  (The `results` array the
source also builds is dead local state and is not modelled; the returned
value is `resultMap`.) -/
def getObjects (backend : List String → Except String (List (Option Obj)))
    (objectIds : List String) : List (String × Obj) :=
  (chunks90 objectIds).foldl (processChunk backend) []

end BatchFetcher

section FailoverPool

/-- The health counters of one node.  The wall-clock fields of the source
record (`lastAttempted`, `lastSuccess`, `latency`) carry no control flow
and are omitted from the pure embedding. -/
structure NodeHealth where
  errorCount : ℕ
  consecutiveFailures : ℕ
deriving DecidableEq, Repr

/-- The slice of `GrapheneRPCPool` state that `_connectToNextNodeInternal`
reads and writes: the rotation index, the active instance (identified by
the index of the node it is bound to) and the per-node health table. -/
structure PoolConnState where
  currentNodeIndex : ℕ
  activeInstance : Option ℕ
  nodeHealth : ℕ → NodeHealth

/-- The `while (attempts < maxAttempts)` rotation loop of
`_connectToNextNodeInternal` (src/unnamed/part_000 lines 629-674).
`succeeds i` is the oracle for whether `new GrapheneRPC(nodes[i], 10000,
true).connectionPromise` resolves.  On success the node's failure counters
reset, the instance binds to it and `currentNodeIndex` is left unchanged;
on failure the counters increment and the index advances by one modulo the
node count.  Exhausting the rotation clears `activeInstance` and returns
`none`, modelling the thrown `AllNodesFailed` error. -/
def connectAttempts (numNodes : ℕ) (succeeds : ℕ → Bool) :
    ℕ → PoolConnState → PoolConnState × Option ℕ
  | 0, st => ({ st with activeInstance := none }, none)
  | attemptsLeft + 1, st =>
      if succeeds st.currentNodeIndex then
        ({ st with
            activeInstance := some st.currentNodeIndex
            nodeHealth := fun i =>
              if i = st.currentNodeIndex then ⟨0, 0⟩ else st.nodeHealth i },
          some st.currentNodeIndex)
      else
        connectAttempts numNodes succeeds attemptsLeft
          { st with
              currentNodeIndex := (st.currentNodeIndex + 1) % numNodes
              nodeHealth := fun i =>
                if i = st.currentNodeIndex then
                  ⟨(st.nodeHealth i).errorCount + 1,
                    (st.nodeHealth i).consecutiveFailures + 1⟩
                else st.nodeHealth i }

/-- `_connectToNextNodeInternal` (src/unnamed/part_000 lines 619-678):
close and clear any stale instance, then try up to `nodes.length` endpoints
in rotation order starting at `currentNodeIndex`. -/
def connectToNextNodeInternal (numNodes : ℕ) (succeeds : ℕ → Bool)
    (st : PoolConnState) : PoolConnState × Option ℕ :=
  connectAttempts numNodes succeeds numNodes
    { st with activeInstance := none }

/-- The pool state touched by the single-flight connect path of
`getActiveInstance` / `_connectWithLock` (src/unnamed/part_000 lines
561-613): the `isConnecting` latch, whether the shared `connectionLock`
promise exists, how many callers await it, the (connected) active instance,
and the instrumented count of connection attempts started. -/
structure PoolAsyncState where
  isConnecting : Bool
  hasConnectionLock : Bool
  lockWaiters : ℕ
  activeInstance : Option ℕ
  attemptsStarted : ℕ
deriving DecidableEq, Repr

/-- What a caller of `getActiveInstance()` is doing when it first
suspends. -/
inductive GaiRole where
  | useActive (inst : ℕ)
  | waiter
  | starter
deriving DecidableEq, Repr

/-- The synchronous prefix of one `getActiveInstance()` call
(src/unnamed/part_000 lines 561-578), as executed atomically by the
single-threaded JS event loop up to the first `await`: return the healthy
active instance; if a connection attempt is underway, install the shared
`connectionLock` if absent and join it as a waiter; otherwise run
`_connectWithLock`'s synchronous prefix (lines 594-603), which latches
`isConnecting`, installs the lock and synchronously starts the connection
attempt inside `_connectToNextNodeInternal`. -/
def gaiPrefix (st : PoolAsyncState) : PoolAsyncState × GaiRole :=
  match st.activeInstance with
  | some inst => (st, GaiRole.useActive inst)
  | none =>
      if st.isConnecting then
        ({ st with
            hasConnectionLock := true
            lockWaiters := st.lockWaiters + 1 }, GaiRole.waiter)
      else
        ({ st with
            isConnecting := true
            hasConnectionLock := true
            attemptsStarted := st.attemptsStarted + 1 }, GaiRole.starter)

/-- Completion of the in-flight attempt inside `_connectWithLock`
(src/unnamed/part_000 lines 602-612 with lines 684-698): on success the
pool's `activeInstance` is set and `_resolveConnectionQueue` resolves every
queued waiter with it; on failure `_rejectConnectionQueue` rejects them
all; either way the `finally` clause clears `isConnecting` and the lock. -/
def completeAttempt (st : PoolAsyncState) (outcome : Except String ℕ) :
    PoolAsyncState :=
  match outcome with
  | .ok inst =>
      { st with
          activeInstance := some inst
          isConnecting := false
          hasConnectionLock := false
          lockWaiters := 0 }
  | .error _ =>
      { st with
          activeInstance := none
          isConnecting := false
          hasConnectionLock := false
          lockWaiters := 0 }

/-- The value a caller's `getActiveInstance()` promise settles to once the
attempt completes: the starter returns the attempt's instance or rethrows
its error (lines 602-608); a waiter's `await this.connectionLock` rethrows
a rejection, and on resolution the waiter returns `this.activeInstance`
read from the post-completion state (lines 572-573). -/
def gaiResult (role : GaiRole) (stAfter : PoolAsyncState)
    (outcome : Except String ℕ) : Except String (Option ℕ) :=
  match role with
  | GaiRole.useActive inst => .ok (some inst)
  | GaiRole.starter =>
      match outcome with
      | .ok inst => .ok (some inst)
      | .error e => .error e
  | GaiRole.waiter =>
      match outcome with
      | .ok _ => .ok stAfter.activeInstance
      | .error e => .error e

/-- The cooperative schedule of the C8 scenario: two `getActiveInstance()`
calls arrive while the pool is disconnected and idle; the event loop runs
caller A's synchronous prefix, then caller B's, then the single in-flight
attempt completes with `outcome` and both callers settle.  Returns the
number of connection attempts started and the two callers' results. -/
def twoCallerScenario (outcome : Except String ℕ) :
    ℕ × Except String (Option ℕ) × Except String (Option ℕ) :=
  (((completeAttempt (gaiPrefix (gaiPrefix
        ⟨false, false, 0, none, 0⟩).1).1 outcome).attemptsStarted),
    gaiResult (gaiPrefix ⟨false, false, 0, none, 0⟩).2
      (completeAttempt (gaiPrefix (gaiPrefix
        ⟨false, false, 0, none, 0⟩).1).1 outcome) outcome,
    gaiResult (gaiPrefix (gaiPrefix ⟨false, false, 0, none, 0⟩).1).2
      (completeAttempt (gaiPrefix (gaiPrefix
        ⟨false, false, 0, none, 0⟩).1).1 outcome) outcome)

end FailoverPool

section CandleAggregator

variable {α : Type} [LinearOrder α] [Add α] [Zero α]

/-! ### Lemmas about the stable sort -/

theorem jsInsert_perm (le : β → β → Bool) (x : β) (l : List β) :
    (jsInsert le x l).Perm (x :: l) := by
  induction l with
  | nil => simp [jsInsert]
  | cons y ys ih =>
      unfold jsInsert
      by_cases h : le x y = true
      · simp [h]
      · simp only [Bool.not_eq_true] at h
        simp only [h, Bool.false_eq_true, if_false]
        exact (ih.cons y).trans (List.Perm.swap x y ys)

theorem jsSort_perm (le : β → β → Bool) (l : List β) :
    (jsSort le l).Perm l := by
  induction l with
  | nil => simp [jsSort]
  | cons x xs ih => exact (jsInsert_perm le x (jsSort le xs)).trans (ih.cons x)

theorem jsInsert_pairwise (le : β → β → Bool)
    (htot : ∀ a b, le a b = false → le b a = true)
    (htrans : ∀ a b c, le a b = true → le b c = true → le a c = true)
    (x : β) (l : List β) (hl : l.Pairwise (fun a b => le a b = true)) :
    (jsInsert le x l).Pairwise (fun a b => le a b = true) := by
  induction l with
  | nil => simp [jsInsert]
  | cons y ys ih =>
      rcases List.pairwise_cons.mp hl with ⟨hy, hys⟩
      unfold jsInsert
      by_cases h : le x y = true
      · rw [if_pos h]
        refine List.pairwise_cons.mpr ⟨?_, hl⟩
        intro z hz
        rcases List.mem_cons.mp hz with rfl | hz
        · exact h
        · exact htrans x y z h (hy z hz)
      · rw [if_neg h]
        simp only [Bool.not_eq_true] at h
        refine List.pairwise_cons.mpr ⟨?_, ih hys⟩
        intro z hz
        have hz' : z ∈ x :: ys := (jsInsert_perm le x ys).mem_iff.mp hz
        rcases List.mem_cons.mp hz' with rfl | hz'
        · exact htot _ _ h
        · exact hy z hz'

theorem jsSort_pairwise (le : β → β → Bool)
    (htot : ∀ a b, le a b = false → le b a = true)
    (htrans : ∀ a b c, le a b = true → le b c = true → le a c = true)
    (l : List β) :
    (jsSort le l).Pairwise (fun a b => le a b = true) := by
  induction l with
  | nil => simp [jsSort]
  | cons x xs ih => exact jsInsert_pairwise le htot htrans x _ ih

theorem mem_getLastD {l : List β} (h : l ≠ []) (d : β) : l.getLastD d ∈ l := by
  induction l with
  | nil => exact absurd rfl h
  | cons a t ih =>
      cases t with
      | nil => simp [List.getLastD]
      | cons b t' =>
          have hm : (b :: t').getLastD d ∈ b :: t' := ih (by simp)
          rw [List.getLastD_cons] at hm
          simp only [List.getLastD_cons]
          exact List.mem_cons_of_mem a hm

/-- Floor-bucketing is monotone for a positive bucket size, so the least
trade bucket is the bucket of the earliest trade and the greatest is the
bucket of the latest trade. -/
theorem bucketOf_mono (tf : ℤ) (htf : 0 < tf) {a b : ℤ} (h : a ≤ b) :
    bucketOf tf a ≤ bucketOf tf b := by
  unfold bucketOf
  rw [Int.fdiv_eq_ediv _ htf.le, Int.fdiv_eq_ediv _ htf.le]
  exact mul_le_mul_of_nonneg_right (Int.ediv_le_ediv htf h) htf.le

/-! ### Lemmas about the first aggregation pass -/

theorem mapSet_ne_nil (m : List (ℤ × Candle α)) (k : ℤ) (v : Candle α) :
    mapSet m k v ≠ [] := by
  cases m with
  | nil => simp [mapSet]
  | cons p rest => unfold mapSet; split <;> simp

theorem addTrade_ne_nil (tf : ℤ) (m : List (ℤ × Candle α)) (t : Trade α) :
    addTrade tf m t ≠ [] := by
  unfold addTrade
  split <;> apply mapSet_ne_nil

theorem foldl_addTrade_ne_nil (tf : ℤ) (L : List (Trade α)) :
    ∀ m : List (ℤ × Candle α), m ≠ [] → L.foldl (addTrade tf) m ≠ [] := by
  induction L with
  | nil => intro m hm; simpa using hm
  | cons t L' ih =>
      intro m _
      rw [List.foldl_cons]
      exact ih _ (addTrade_ne_nil tf m t)

theorem mem_keys_mapSet (m : List (ℤ × Candle α)) (k : ℤ) (v : Candle α)
    (k' : ℤ) :
    k' ∈ (mapSet m k v).map Prod.fst ↔ k' = k ∨ k' ∈ m.map Prod.fst := by
  induction m with
  | nil => simp [mapSet]
  | cons p rest ih =>
      unfold mapSet
      rcases p with ⟨k₀, v₀⟩
      by_cases h : k₀ = k
      · rw [if_pos h]; subst h; simp
      · rw [if_neg h]
        simp only [List.map_cons, List.mem_cons, ih]
        tauto

theorem mem_keys_addTrade (tf : ℤ) (m : List (ℤ × Candle α)) (t : Trade α)
    (k' : ℤ) :
    k' ∈ (addTrade tf m t).map Prod.fst ↔
      k' = bucketOf tf t.1 ∨ k' ∈ m.map Prod.fst := by
  unfold addTrade
  split <;> rw [mem_keys_mapSet]

theorem mem_keys_foldl_addTrade (tf : ℤ) (L : List (Trade α)) :
    ∀ (m : List (ℤ × Candle α)) (k' : ℤ),
      k' ∈ (L.foldl (addTrade tf) m).map Prod.fst ↔
        k' ∈ m.map Prod.fst ∨ k' ∈ L.map (fun t => bucketOf tf t.1) := by
  induction L with
  | nil => intro m k'; simp
  | cons t L' ih =>
      intro m k'
      rw [List.foldl_cons, ih, mem_keys_addTrade]
      simp only [List.map_cons, List.mem_cons]
      tauto

theorem mapLookup_mem (m : List (ℤ × Candle α)) (k : ℤ) (c : Candle α)
    (h : mapLookup m k = some c) : (k, c) ∈ m := by
  induction m with
  | nil => simp [mapLookup] at h
  | cons p rest ih =>
      rcases p with ⟨k₀, v₀⟩
      unfold mapLookup at h
      by_cases hk : k₀ = k
      · rw [if_pos hk] at h
        subst hk
        cases h
        exact List.mem_cons_self _ _
      · rw [if_neg hk] at h
        exact List.mem_cons_of_mem _ (ih h)

theorem mapSet_entry_cases (m : List (ℤ × Candle α)) (k : ℤ) (v : Candle α) :
    ∀ p ∈ mapSet m k v, p = (k, v) ∨ p ∈ m := by
  induction m with
  | nil => simp [mapSet]
  | cons q rest ih =>
      rcases q with ⟨k₀, v₀⟩
      unfold mapSet
      by_cases h : k₀ = k
      · rw [if_pos h]
        intro p hp
        rcases List.mem_cons.mp hp with rfl | hp
        · exact Or.inl rfl
        · exact Or.inr (List.mem_cons_of_mem _ hp)
      · rw [if_neg h]
        intro p hp
        rcases List.mem_cons.mp hp with rfl | hp
        · exact Or.inr (List.mem_cons_self _ _)
        · rcases ih p hp with h' | h'
          · exact Or.inl h'
          · exact Or.inr (List.mem_cons_of_mem _ h')

theorem addTrade_entry_ts (tf : ℤ) (m : List (ℤ × Candle α)) (t : Trade α)
    (hm : ∀ p ∈ m, (Prod.snd p).timestamp = p.1) :
    ∀ p ∈ addTrade tf m t, (Prod.snd p).timestamp = p.1 := by
  unfold addTrade
  intro p
  split
  · intro hp
    rcases mapSet_entry_cases _ _ _ p hp with rfl | hp
    · rfl
    · exact hm p hp
  · rename_i candle hl
    intro hp
    rcases mapSet_entry_cases _ _ _ p hp with rfl | hp
    · have := hm _ (mapLookup_mem _ _ _ hl)
      simpa using this
    · exact hm p hp

theorem foldl_addTrade_entry_ts (tf : ℤ) (L : List (Trade α)) :
    ∀ m : List (ℤ × Candle α), (∀ p ∈ m, (Prod.snd p).timestamp = p.1) →
      ∀ p ∈ L.foldl (addTrade tf) m, (Prod.snd p).timestamp = p.1 := by
  induction L with
  | nil => intro m hm; simpa using hm
  | cons t L' ih =>
      intro m hm
      rw [List.foldl_cons]
      exact ih _ (addTrade_entry_ts tf m t hm)

/-- The timestamps of the map's candles are exactly its keys. -/
theorem values_map_ts (m : List (ℤ × Candle α))
    (h : ∀ p ∈ m, (Prod.snd p).timestamp = p.1) :
    (m.map Prod.snd).map Candle.timestamp = m.map Prod.fst := by
  rw [List.map_map]
  exact List.map_congr_left h

/-! ### Facts about `candlesWithTrades` -/

theorem candlesWithTrades_pairwise (trades : List (Trade α)) (tf : ℤ) :
    (candlesWithTrades trades tf).Pairwise
      (fun a b => a.timestamp ≤ b.timestamp) := by
  have h := jsSort_pairwise
    (fun a b : Candle α => decide (a.timestamp ≤ b.timestamp))
    (by intro a b hab; simp at hab ⊢; omega)
    (by intro a b c hab hbc; simp at hab hbc ⊢; omega)
    ((((jsSort (fun a b => decide (a.1 ≤ b.1)) trades).foldl
        (addTrade tf) []).map Prod.snd))
  exact h.imp fun hab => of_decide_eq_true hab

theorem mem_ts_candlesWithTrades (trades : List (Trade α)) (tf : ℤ) (x : ℤ) :
    x ∈ (candlesWithTrades trades tf).map Candle.timestamp ↔
      x ∈ trades.map (fun t => bucketOf tf t.1) := by
  unfold candlesWithTrades
  rw [((jsSort_perm _ _).map Candle.timestamp).mem_iff]
  rw [values_map_ts _ (foldl_addTrade_entry_ts tf _ [] (by simp))]
  rw [mem_keys_foldl_addTrade]
  simp only [List.map_nil, List.not_mem_nil, false_or]
  rw [((jsSort_perm _ trades).map (fun t : Trade α => bucketOf tf t.1)).mem_iff]

theorem candlesWithTrades_ne_nil (trades : List (Trade α)) (tf : ℤ)
    (h : trades ≠ []) : candlesWithTrades trades tf ≠ [] := by
  unfold candlesWithTrades
  intro hcon
  have hS : jsSort (fun a b : Trade α => decide (a.1 ≤ b.1)) trades ≠ [] := by
    intro hs
    apply h
    have hlen := (jsSort_perm (fun a b : Trade α => decide (a.1 ≤ b.1))
      trades).length_eq
    rw [hs] at hlen
    exact List.length_eq_zero.mp hlen.symm
  obtain ⟨t, L', hTL⟩ := List.exists_cons_of_ne_nil hS
  have hfold : (jsSort (fun a b : Trade α => decide (a.1 ≤ b.1)) trades).foldl
      (addTrade tf) [] ≠ [] := by
    rw [hTL, List.foldl_cons]
    exact foldl_addTrade_ne_nil tf L' _ (addTrade_ne_nil tf [] t)
  have hlen2 := (jsSort_perm
    (fun a b : Candle α => decide (a.timestamp ≤ b.timestamp))
    (((jsSort (fun a b : Trade α => decide (a.1 ≤ b.1)) trades).foldl
        (addTrade tf) []).map Prod.snd)).length_eq
  rw [hcon] at hlen2
  have := List.length_eq_zero.mp hlen2.symm
  rw [List.map_eq_nil] at this
  exact hfold this

/-- In a list of candles pairwise-sorted by timestamp, every member's
timestamp is at most the last one's. -/
theorem ts_le_getLastD {l : List (Candle α)} (d : Candle α)
    (hl : l.Pairwise (fun a b => a.timestamp ≤ b.timestamp)) :
    ∀ x ∈ l, x.timestamp ≤ (l.getLastD d).timestamp := by
  induction l with
  | nil => intro x hx; cases hx
  | cons a t ih =>
      rcases List.pairwise_cons.mp hl with ⟨ha, ht⟩
      intro x hx
      cases t with
      | nil =>
          rcases List.mem_cons.mp hx with rfl | hx
          · simp [List.getLastD]
          · cases hx
      | cons b t' =>
          have ihx : ∀ y ∈ b :: t',
              y.timestamp ≤ ((b :: t').getLastD d).timestamp := ih ht
          rw [List.getLastD_cons] at ihx
          simp only [List.getLastD_cons]
          rcases List.mem_cons.mp hx with rfl | hx
          · exact le_trans (ha b (by simp)) (ihx b (by simp))
          · exact ihx x hx

/-- In a list of candles pairwise-sorted by timestamp, the head's timestamp
is at most every member's. -/
theorem head_ts_le {first : Candle α} {rest : List (Candle α)}
    (hl : (first :: rest).Pairwise (fun a b => a.timestamp ≤ b.timestamp)) :
    ∀ x ∈ first :: rest, first.timestamp ≤ x.timestamp := by
  rcases List.pairwise_cons.mp hl with ⟨hf, _⟩
  intro x hx
  rcases List.mem_cons.mp hx with rfl | hx
  · exact le_refl _
  · exact hf x hx

/-! ### Lemmas about the gap-filling pass -/

theorem range_map_affine_succ (n : ℕ) (cur tf : ℤ) :
    (List.range (n + 2)).map (fun i : ℕ => cur + (i : ℤ) * tf)
      = cur :: (List.range (n + 1)).map
          (fun i : ℕ => (cur + tf) + (i : ℤ) * tf) := by
  rw [List.range_succ_eq_map]
  simp only [List.map_cons, List.map_map, Nat.cast_zero, zero_mul, add_zero]
  congr 1
  apply List.map_congr_left
  intro i _
  simp only [Function.comp_apply, Nat.cast_succ]
  ring

theorem fillLoop_zero (tf : ℤ) (cwt : List (Candle α)) (lastTs : ℤ)
    (idx : ℕ) (cur : ℤ) (lc : Option α) :
    fillLoop tf cwt lastTs 0 idx cur lc = ([], false) := rfl

/-- One-step unfolding of `fillLoop`, with the `let` bindings expanded. -/
theorem fillLoop_succ_eq (tf : ℤ) (cwt : List (Candle α)) (lastTs : ℤ)
    (fuel idx : ℕ) (cur : ℤ) (lc : Option α) :
    fillLoop tf cwt lastTs (fuel + 1) idx cur lc
      = if cur ≤ lastTs then
          match cwt.get? idx with
          | some existingCandle =>
              if existingCandle.timestamp = cur then
                (existingCandle ::
                    (fillLoop tf cwt lastTs fuel (idx + 1) (cur + tf)
                      (some existingCandle.close)).1,
                  (fillLoop tf cwt lastTs fuel (idx + 1) (cur + tf)
                    (some existingCandle.close)).2)
              else
                match lc with
                | some x =>
                    (⟨cur, x, x, x, x, 0⟩ ::
                        (fillLoop tf cwt lastTs fuel idx (cur + tf) lc).1,
                      (fillLoop tf cwt lastTs fuel idx (cur + tf) lc).2)
                | none =>
                    (⟨cur, 0, 0, 0, 0, 0⟩ ::
                        (fillLoop tf cwt lastTs fuel idx (cur + tf) none).1,
                      true)
          | none =>
              match lc with
              | some x =>
                  (⟨cur, x, x, x, x, 0⟩ ::
                      (fillLoop tf cwt lastTs fuel idx (cur + tf) lc).1,
                    (fillLoop tf cwt lastTs fuel idx (cur + tf) lc).2)
              | none =>
                  (⟨cur, 0, 0, 0, 0, 0⟩ ::
                      (fillLoop tf cwt lastTs fuel idx (cur + tf) none).1,
                    true)
        else ([], false) := by
  cases lc <;> rfl

/-- The timestamps emitted by the gap-filling walk form exactly the
arithmetic progression from `cur` to `lastTs` with step `tf`: one candle per
bucket, none missing, strictly ascending for positive `tf`. -/
theorem fillLoop_map_timestamp (tf : ℤ) (cwt : List (Candle α)) (lastTs : ℤ)
    (htf : 0 < tf) :
    ∀ (n : ℕ) (idx : ℕ) (cur : ℤ) (lc : Option α),
      cur ≤ lastTs → (lastTs - cur).fdiv tf = (n : ℤ) →
      (fillLoop tf cwt lastTs (n + 1) idx cur lc).1.map Candle.timestamp
        = (List.range (n + 1)).map (fun i : ℕ => cur + (i : ℤ) * tf) := by
  intro n
  induction n with
  | zero =>
      intro idx cur lc hcur _
      rw [fillLoop_succ_eq, if_pos hcur]
      simp only [fillLoop_zero]
      split
      · split
        · rename_i c _ hts
          simp [hts, show List.range 1 = [0] from rfl]
        · split <;> simp [show List.range 1 = [0] from rfl]
      · split <;> simp [show List.range 1 = [0] from rfl]
  | succ n ih =>
      intro idx cur lc hcur hfd
      rw [Int.fdiv_eq_ediv _ htf.le] at hfd
      have hstep : cur + tf ≤ lastTs := by
        have h2 : (1 : ℤ) ≤ (lastTs - cur) / tf := by rw [hfd]; omega
        have h3 := (Int.le_ediv_iff_mul_le htf).mp h2
        omega
      have hnew : (lastTs - (cur + tf)).fdiv tf = (n : ℤ) := by
        rw [Int.fdiv_eq_ediv _ htf.le]
        have heq : lastTs - (cur + tf) = (lastTs - cur) + (-1) * tf := by ring
        rw [heq, Int.add_mul_ediv_right _ _ (ne_of_gt htf), hfd]
        omega
      rw [range_map_affine_succ]
      rw [fillLoop_succ_eq, if_pos hcur]
      split
      · split
        · rename_i c _ hts
          dsimp only
          rw [List.map_cons, hts, ih (idx + 1) (cur + tf) _ hstep hnew]
        · split <;>
            · dsimp only
              rw [List.map_cons, ih _ (cur + tf) _ hstep hnew]
      · split <;>
          · dsimp only
            rw [List.map_cons, ih _ (cur + tf) _ hstep hnew]

/-- If the walk's output starts with a candle whose bucket holds no trades
(a synthetic candle), that candle is the flat carry-forward of the incoming
`lastClose` (or the all-zero fallback when there is none). -/
theorem fillLoop_head_synthetic (tf : ℤ) (cwt : List (Candle α)) (lastTs : ℤ)
    (fuel idx : ℕ) (cur : ℤ) (lc : Option α) (b : Candle α)
    (rest' : List (Candle α))
    (hout : (fillLoop tf cwt lastTs fuel idx cur lc).1 = b :: rest')
    (hmem : b.timestamp ∉ cwt.map Candle.timestamp) :
    b.open_ = lc.getD 0 ∧ b.high = lc.getD 0 ∧ b.low = lc.getD 0 ∧
      b.close = lc.getD 0 ∧ b.volume = 0 := by
  cases fuel with
  | zero => rw [fillLoop_zero] at hout; simp at hout
  | succ fuel =>
      rw [fillLoop_succ_eq] at hout
      by_cases hcur : cur ≤ lastTs
      · rw [if_pos hcur] at hout
        split at hout
        · rename_i c hg
          split at hout
          · dsimp only at hout
            rw [List.cons.injEq] at hout
            exfalso
            apply hmem
            rw [← hout.1]
            exact List.mem_map_of_mem _ (List.get?_mem hg)
          · split at hout <;>
              · dsimp only at hout
                rw [List.cons.injEq] at hout
                rw [← hout.1]
                simp
        · split at hout <;>
            · dsimp only at hout
              rw [List.cons.injEq] at hout
              rw [← hout.1]
              simp
      · rw [if_neg hcur] at hout; simp at hout

/-- Every synthetic candle the walk emits is flat (open = high = low =
close) with volume `0`. -/
theorem fillLoop_synthetic_flat (tf : ℤ) (cwt : List (Candle α)) (lastTs : ℤ) :
    ∀ (fuel idx : ℕ) (cur : ℤ) (lc : Option α) (c : Candle α),
      c ∈ (fillLoop tf cwt lastTs fuel idx cur lc).1 →
      c.timestamp ∉ cwt.map Candle.timestamp →
      c.open_ = c.close ∧ c.high = c.close ∧ c.low = c.close ∧
        c.volume = 0 := by
  intro fuel
  induction fuel with
  | zero => intro idx cur lc c hc; rw [fillLoop_zero] at hc; simp at hc
  | succ fuel ih =>
      intro idx cur lc c hc hmem
      rw [fillLoop_succ_eq] at hc
      by_cases hcur : cur ≤ lastTs
      swap
      · rw [if_neg hcur] at hc; simp at hc
      rw [if_pos hcur] at hc
      split at hc
      · rename_i cc hg
        split at hc
        · dsimp only at hc
          rcases List.mem_cons.mp hc with rfl | hc
          · exact absurd (List.mem_map_of_mem _ (List.get?_mem hg)) hmem
          · exact ih _ _ _ c hc hmem
        · split at hc <;>
            · dsimp only at hc
              rcases List.mem_cons.mp hc with rfl | hc
              · simp
              · exact ih _ _ _ c hc hmem
      · split at hc <;>
          · dsimp only at hc
            rcases List.mem_cons.mp hc with rfl | hc
            · simp
            · exact ih _ _ _ c hc hmem

/-- Stepping the walk: if the output is `b :: rest'` then `rest'` is itself
a walk output one bucket later, whose incoming carry value (defaulted to 0)
is exactly `b.close`. -/
theorem fillLoop_step (tf : ℤ) (cwt : List (Candle α)) (lastTs : ℤ)
    (fuel idx : ℕ) (cur : ℤ) (lc : Option α) (b : Candle α)
    (rest' : List (Candle α))
    (hout : (fillLoop tf cwt lastTs (fuel + 1) idx cur lc).1 = b :: rest') :
    ∃ (idx' : ℕ) (lc' : Option α),
      rest' = (fillLoop tf cwt lastTs fuel idx' (cur + tf) lc').1 ∧
        lc'.getD 0 = b.close := by
  rw [fillLoop_succ_eq] at hout
  by_cases hcur : cur ≤ lastTs
  swap
  · rw [if_neg hcur] at hout; simp at hout
  rw [if_pos hcur] at hout
  split at hout
  · rename_i cc hg
    split at hout
    · dsimp only at hout
      rw [List.cons.injEq] at hout
      exact ⟨idx + 1, some cc.close, hout.2.symm, by rw [hout.1]; rfl⟩
    · split at hout
      · rename_i xv
        dsimp only at hout
        rw [List.cons.injEq] at hout
        exact ⟨idx, some xv, hout.2.symm, by rw [← hout.1]; rfl⟩
      · dsimp only at hout
        rw [List.cons.injEq] at hout
        exact ⟨idx, none, hout.2.symm, by rw [← hout.1]; rfl⟩
  · split at hout
    · rename_i xv
      dsimp only at hout
      rw [List.cons.injEq] at hout
      exact ⟨idx, some xv, hout.2.symm, by rw [← hout.1]; rfl⟩
    · dsimp only at hout
      rw [List.cons.injEq] at hout
      exact ⟨idx, none, hout.2.symm, by rw [← hout.1]; rfl⟩

/-- Carry-forward chaining: a synthetic candle's close equals the close of
the candle immediately before it in the walk's output. -/
theorem fillLoop_synthetic_chain (tf : ℤ) (cwt : List (Candle α))
    (lastTs : ℤ) :
    ∀ (fuel idx : ℕ) (cur : ℤ) (lc : Option α) (i : ℕ) (b1 b0 : Candle α),
      (fillLoop tf cwt lastTs fuel idx cur lc).1.get? (i + 1) = some b1 →
      (fillLoop tf cwt lastTs fuel idx cur lc).1.get? i = some b0 →
      b1.timestamp ∉ cwt.map Candle.timestamp →
      b1.close = b0.close := by
  intro fuel
  induction fuel with
  | zero =>
      intro idx cur lc i b1 b0 h1 _ _
      rw [fillLoop_zero] at h1
      simp at h1
  | succ fuel ih =>
      intro idx cur lc i b1 b0 h1 h0 hmem
      cases hsh : (fillLoop tf cwt lastTs (fuel + 1) idx cur lc).1 with
      | nil => rw [hsh] at h1; simp at h1
      | cons b rest'' =>
          obtain ⟨idx', lc', hrest, hgd⟩ := fillLoop_step tf cwt lastTs
            fuel idx cur lc b rest'' hsh
          rw [hsh] at h1 h0
          cases i with
          | zero =>
              simp only [List.get?] at h1 h0
              cases h0
              cases hr2 : rest'' with
              | nil => rw [hr2] at h1; simp at h1
              | cons b1' tail =>
                  rw [hr2] at h1
                  simp only [List.get?] at h1
                  cases h1
                  have hflat := fillLoop_head_synthetic tf cwt lastTs fuel
                    idx' (cur + tf) lc' b1 tail (by rw [← hrest, hr2]) hmem
                  rw [hflat.2.2.2.1, hgd]
          | succ i0 =>
              simp only [List.get?] at h1 h0
              rw [hrest] at h1 h0
              exact ih idx' (cur + tf) lc' i0 b1 b0 h1 h0 hmem

/-- Once the walk has a carry value, the all-zero fallback branch can never
run: the instrumentation flag stays `false`. -/
theorem fillLoop_flag_of_some (tf : ℤ) (cwt : List (Candle α)) (lastTs : ℤ) :
    ∀ (fuel idx : ℕ) (cur : ℤ) (x : α),
      (fillLoop tf cwt lastTs fuel idx cur (some x)).2 = false := by
  intro fuel
  induction fuel with
  | zero => intro idx cur x; rw [fillLoop_zero]
  | succ fuel ih =>
      intro idx cur x
      rw [fillLoop_succ_eq]
      by_cases hcur : cur ≤ lastTs
      swap
      · rw [if_neg hcur]
      rw [if_pos hcur]
      split
      · split
        · dsimp only; apply ih
        · dsimp only; apply ih
      · dsimp only; apply ih

/-- The first iteration of the walk as started by `tradesToCandles`: the
head of `candlesWithTrades` is emitted as-is (its bucket is the starting
`currentTime`), and the recursion continues with `lastClose` seeded by its
close. -/
theorem fillLoop_first_step (tf : ℤ) (first : Candle α)
    (rest : List (Candle α)) (lastTs : ℤ) (n : ℕ)
    (hcur : first.timestamp ≤ lastTs) :
    fillLoop tf (first :: rest) lastTs (n + 1) 0 first.timestamp none
      = (first :: (fillLoop tf (first :: rest) lastTs n 1
            (first.timestamp + tf) (some first.close)).1,
          (fillLoop tf (first :: rest) lastTs n 1
            (first.timestamp + tf) (some first.close)).2) := by
  rw [fillLoop_succ_eq, if_pos hcur]
  dsimp only [List.get?]
  rw [if_pos rfl]

/-- Unfolding `tradesToCandles` on a non-empty trade list. -/
theorem tradesToCandles_eq (trades : List (Trade α)) (s : ℤ)
    (first : Candle α) (rest : List (Candle α))
    (hcwt : candlesWithTrades trades (s * 1000) = first :: rest)
    (hne : trades ≠ []) :
    tradesToCandles trades s
      = (fillLoop (s * 1000) (first :: rest)
          (((first :: rest).getLastD first).timestamp)
          (((((first :: rest).getLastD first).timestamp
              - first.timestamp).fdiv (s * 1000)).toNat + 1)
          0 first.timestamp none).1 := by
  unfold tradesToCandles
  rw [if_neg (by simp [hne]), hcwt]

/-- Unfolding `tradesToCandlesFallbackUsed` on a non-empty trade list. -/
theorem tradesToCandlesFallbackUsed_eq (trades : List (Trade α)) (s : ℤ)
    (first : Candle α) (rest : List (Candle α))
    (hcwt : candlesWithTrades trades (s * 1000) = first :: rest)
    (hne : trades ≠ []) :
    tradesToCandlesFallbackUsed trades s
      = (fillLoop (s * 1000) (first :: rest)
          (((first :: rest).getLastD first).timestamp)
          (((((first :: rest).getLastD first).timestamp
              - first.timestamp).fdiv (s * 1000)).toNat + 1)
          0 first.timestamp none).2 := by
  unfold tradesToCandlesFallbackUsed
  rw [if_neg (by simp [hne]), hcwt]

end CandleAggregator

/-- C3: for trades `[(1000,10,1),(1000,12,1),(61000,11,2)]` and bucket size
60000 ms (timeframe 60 s), the aggregator returns exactly the two candles
`{0, open 10, high 12, low 10, close 12, volume 2}` and
`{60000, open 11, high 11, low 11, close 11, volume 2}`: within a bucket,
open is the first trade of the stable ascending sort, close the last,
high/low the running max/min and volume the running sum. -/
theorem tradesToCandles_example :
    tradesToCandles ([((1000 : ℤ), (10 : ℤ), (1 : ℤ)), (1000, 12, 1),
        (61000, 11, 2)] : List (Trade ℤ)) 60
      = [⟨0, 10, 12, 10, 12, 2⟩, ⟨60000, 11, 11, 11, 11, 2⟩] := by
  decide

/-- C1: the candle aggregator maps the empty trade list to the empty series;
for every non-empty trade list and positive timeframe, the output's bucket
timestamps are exactly the arithmetic progression from `fb` to `lb` with
step `bucketSize = timeframeSeconds * 1000` ms, where `fb` and `lb` are the
least and greatest trade buckets (equivalently, the buckets of the earliest
and latest trade, floor-bucketing being monotone).  In particular the bucket
timestamps are strictly ascending, spaced exactly one bucket size apart, the
output length is `(lb - fb) / bucketSize + 1`, and no bucket in the span is
missing. -/
theorem tradesToCandles_gapless {α : Type} [LinearOrder α] [Add α] [Zero α]
    (s : ℤ) (hs : 0 < s) :
    tradesToCandles ([] : List (Trade α)) s = [] ∧
    ∀ (trades : List (Trade α)) (fb lb : ℤ),
      trades ≠ [] →
      fb ∈ trades.map (fun t => bucketOf (s * 1000) t.1) →
      (∀ b ∈ trades.map (fun t => bucketOf (s * 1000) t.1), fb ≤ b) →
      lb ∈ trades.map (fun t => bucketOf (s * 1000) t.1) →
      (∀ b ∈ trades.map (fun t => bucketOf (s * 1000) t.1), b ≤ lb) →
      (tradesToCandles trades s).map Candle.timestamp
        = (List.range (((lb - fb).fdiv (s * 1000)).toNat + 1)).map
            (fun i : ℕ => fb + (i : ℤ) * (s * 1000)) := by
  constructor
  · simp [tradesToCandles]
  · intro trades fb lb htr hfbm hfble hlbm hlble
    have htf : 0 < s * 1000 := by positivity
    obtain ⟨first, rest, hcwt⟩ :=
      List.exists_cons_of_ne_nil (candlesWithTrades_ne_nil trades (s * 1000) htr)
    rw [tradesToCandles_eq trades s first rest hcwt htr]
    have hpw : (first :: rest).Pairwise
        (fun a b : Candle α => a.timestamp ≤ b.timestamp) := by
      rw [← hcwt]; exact candlesWithTrades_pairwise trades (s * 1000)
    have hmemiff : ∀ x : ℤ, x ∈ (first :: rest).map Candle.timestamp ↔
        x ∈ trades.map (fun t => bucketOf (s * 1000) t.1) := by
      intro x; rw [← hcwt]; exact mem_ts_candlesWithTrades trades (s * 1000) x
    have hfirst : first.timestamp = fb := by
      have h1 : first.timestamp ∈ trades.map (fun t => bucketOf (s * 1000) t.1) :=
        (hmemiff _).mp (List.mem_map_of_mem _ (by simp))
      have h2 : fb ≤ first.timestamp := hfble _ h1
      obtain ⟨c, hc, hcts⟩ := List.mem_map.mp ((hmemiff fb).mpr hfbm)
      have h3 := head_ts_le hpw c hc
      omega
    have hlast : ((first :: rest).getLastD first).timestamp = lb := by
      have h1 : ((first :: rest).getLastD first).timestamp
          ∈ trades.map (fun t => bucketOf (s * 1000) t.1) :=
        (hmemiff _).mp (List.mem_map_of_mem _ (mem_getLastD (by simp) first))
      have h2 : ((first :: rest).getLastD first).timestamp ≤ lb := hlble _ h1
      obtain ⟨c, hc, hcts⟩ := List.mem_map.mp ((hmemiff lb).mpr hlbm)
      have h3 := ts_le_getLastD first hpw c hc
      omega
    rw [hfirst, hlast]
    have hd0 : 0 ≤ (lb - fb).fdiv (s * 1000) := by
      rw [Int.fdiv_eq_ediv _ htf.le]
      have hfb_le_lb : fb ≤ lb := hlble fb hfbm
      exact Int.ediv_nonneg (by omega) htf.le
    exact fillLoop_map_timestamp (s * 1000) (first :: rest) lb htf
      (((lb - fb).fdiv (s * 1000)).toNat) 0 fb none (hlble fb hfbm)
      (Int.toNat_of_nonneg hd0).symm

/-- Witness for C1 at the concrete example trades of the specification. -/
theorem tradesToCandles_gapless_witness :
    (tradesToCandles ([((1000 : ℤ), (10 : ℤ), (1 : ℤ)), (1000, 12, 1),
        (61000, 11, 2)] : List (Trade ℤ)) 60).map Candle.timestamp
      = (List.range 2).map (fun i : ℕ => 0 + (i : ℤ) * 60000) :=
  (tradesToCandles_gapless 60 (by decide)).2
    [((1000 : ℤ), (10 : ℤ), (1 : ℤ)), (1000, 12, 1), (61000, 11, 2)]
    0 60000 (by decide) (by decide) (by decide) (by decide) (by decide)

/-- C9: for every trade list and positive timeframe the all-zero fallback
branch of the gap-filling pass (emitting open=high=low=close=0) is never
taken — `tradesToCandlesFallbackUsed` is `false` — and for every non-empty
trade list the first emitted bucket contains at least one trade: the span
starts at the first trade's bucket, so carry-forward always has a seed. -/
theorem tradesToCandles_fallback_unreachable {α : Type} [LinearOrder α]
    [Add α] [Zero α] (s : ℤ) (hs : 0 < s) (trades : List (Trade α)) :
    tradesToCandlesFallbackUsed trades s = false ∧
    (trades ≠ [] → ∃ c : Candle α,
      (tradesToCandles trades s).head? = some c ∧
      ∃ t ∈ trades, bucketOf (s * 1000) t.1 = c.timestamp) := by
  by_cases htr : trades = []
  · subst htr
    refine ⟨by simp [tradesToCandlesFallbackUsed], ?_⟩
    intro h; exact absurd rfl h
  · obtain ⟨first, rest, hcwt⟩ :=
      List.exists_cons_of_ne_nil (candlesWithTrades_ne_nil trades (s * 1000) htr)
    have hpw : (first :: rest).Pairwise
        (fun a b : Candle α => a.timestamp ≤ b.timestamp) := by
      rw [← hcwt]; exact candlesWithTrades_pairwise trades (s * 1000)
    have hcur : first.timestamp ≤ ((first :: rest).getLastD first).timestamp :=
      ts_le_getLastD first hpw first (by simp)
    constructor
    · rw [tradesToCandlesFallbackUsed_eq trades s first rest hcwt htr]
      rw [fillLoop_first_step (s * 1000) first rest _ _ hcur]
      exact fillLoop_flag_of_some (s * 1000) (first :: rest) _ _ _ _ _
    · intro _
      refine ⟨first, ?_, ?_⟩
      · rw [tradesToCandles_eq trades s first rest hcwt htr]
        rw [fillLoop_first_step (s * 1000) first rest _ _ hcur]
        rfl
      · have h1 : first.timestamp ∈
            trades.map (fun t => bucketOf (s * 1000) t.1) := by
          rw [← mem_ts_candlesWithTrades trades (s * 1000), hcwt]
          exact List.mem_map_of_mem _ (by simp)
        obtain ⟨t, ht, heq⟩ := List.mem_map.mp h1
        exact ⟨t, ht, heq⟩

/-- Witness for C9 at the concrete example trades of the specification. -/
theorem tradesToCandles_fallback_unreachable_witness :
    tradesToCandlesFallbackUsed ([((1000 : ℤ), (10 : ℤ), (1 : ℤ)),
        (1000, 12, 1), (61000, 11, 2)] : List (Trade ℤ)) 60 = false ∧
    ∃ c : Candle ℤ,
      (tradesToCandles ([((1000 : ℤ), (10 : ℤ), (1 : ℤ)), (1000, 12, 1),
          (61000, 11, 2)] : List (Trade ℤ)) 60).head? = some c ∧
      ∃ t ∈ ([((1000 : ℤ), (10 : ℤ), (1 : ℤ)), (1000, 12, 1),
          (61000, 11, 2)] : List (Trade ℤ)),
        bucketOf (60 * 1000) t.1 = c.timestamp := by
  have h := tradesToCandles_fallback_unreachable (α := ℤ) 60 (by decide)
    [((1000 : ℤ), (10 : ℤ), (1 : ℤ)), (1000, 12, 1), (61000, 11, 2)]
  exact ⟨h.1, h.2 (by decide)⟩

/-- C2: every synthetic candle of the aggregator's output (one at a bucket
containing no trades) has open, high, low and close all equal to the close
of the nearest preceding non-empty bucket, and volume 0. -/
theorem tradesToCandles_carry_forward {α : Type} [LinearOrder α] [Add α]
    [Zero α] (s : ℤ) (hs : 0 < s) (trades : List (Trade α)) (i : ℕ)
    (c : Candle α)
    (hget : (tradesToCandles trades s).get? i = some c)
    (hsyn : ∀ t ∈ trades, bucketOf (s * 1000) t.1 ≠ c.timestamp) :
    ∃ (j : ℕ) (b : Candle α), j < i ∧
      (tradesToCandles trades s).get? j = some b ∧
      (∃ t ∈ trades, bucketOf (s * 1000) t.1 = b.timestamp) ∧
      (∀ (k : ℕ) (ck : Candle α), j < k → k < i →
        (tradesToCandles trades s).get? k = some ck →
        ∀ t ∈ trades, bucketOf (s * 1000) t.1 ≠ ck.timestamp) ∧
      c.open_ = b.close ∧ c.high = b.close ∧ c.low = b.close ∧
        c.close = b.close ∧ c.volume = 0 := by
  have htr : trades ≠ [] := by
    intro h
    subst h
    simp [tradesToCandles] at hget
  obtain ⟨first, rest, hcwt⟩ :=
    List.exists_cons_of_ne_nil (candlesWithTrades_ne_nil trades (s * 1000) htr)
  have hpw : (first :: rest).Pairwise
      (fun a b : Candle α => a.timestamp ≤ b.timestamp) := by
    rw [← hcwt]; exact candlesWithTrades_pairwise trades (s * 1000)
  have hcur : first.timestamp ≤ ((first :: rest).getLastD first).timestamp :=
    ts_le_getLastD first hpw first (by simp)
  have hout_eq := tradesToCandles_eq trades s first rest hcwt htr
  have hget0 : (tradesToCandles trades s).get? 0 = some first := by
    rw [hout_eq, fillLoop_first_step _ _ _ _ _ hcur]
    rfl
  have htrans : ∀ cc : Candle α,
      (∀ t ∈ trades, bucketOf (s * 1000) t.1 ≠ cc.timestamp) ↔
        cc.timestamp ∉ (first :: rest).map Candle.timestamp := by
    intro cc
    have h0 := mem_ts_candlesWithTrades trades (s * 1000) cc.timestamp
    rw [hcwt] at h0
    rw [h0]
    simp only [List.mem_map, not_exists]
    constructor
    · intro h x hx
      exact h x hx.1 hx.2
    · intro h t ht hcon
      exact (h t) ⟨ht, hcon⟩
  have hcm : c.timestamp ∉ (first :: rest).map Candle.timestamp :=
    (htrans c).mp hsyn
  have hmemfl : c ∈ (fillLoop (s * 1000) (first :: rest)
      ((first :: rest).getLastD first).timestamp
      (((((first :: rest).getLastD first).timestamp - first.timestamp).fdiv
          (s * 1000)).toNat + 1) 0 first.timestamp none).1 := by
    rw [← hout_eq]
    exact List.get?_mem hget
  have hflat : c.open_ = c.close ∧ c.high = c.close ∧ c.low = c.close ∧
      c.volume = 0 :=
    fillLoop_synthetic_flat (s * 1000) (first :: rest) _ _ _ _ _ c hmemfl hcm
  have main : ∀ i1 : ℕ, ∀ b : Candle α,
      (tradesToCandles trades s).get? i1 = some b →
      b.timestamp ∉ (first :: rest).map Candle.timestamp →
      ∃ (j : ℕ) (b' : Candle α), j < i1 ∧
        (tradesToCandles trades s).get? j = some b' ∧
        b'.timestamp ∈ (first :: rest).map Candle.timestamp ∧
        (∀ (k : ℕ) (bk : Candle α), j < k → k < i1 →
          (tradesToCandles trades s).get? k = some bk →
          bk.timestamp ∉ (first :: rest).map Candle.timestamp) ∧
        b.close = b'.close := by
    intro i1
    induction i1 using Nat.strong_induction_on with
    | _ i1 IH =>
        intro b hb hbm
        cases i1 with
        | zero =>
            rw [hget0] at hb
            cases hb
            exact absurd (List.mem_map_of_mem _ (by simp)) hbm
        | succ i0 =>
            have hup : i0 + 1 < (tradesToCandles trades s).length := by
              by_contra hc
              rw [List.get?_eq_none.mpr (by omega)] at hb
              cases hb
            obtain ⟨b0, hb0⟩ :
                ∃ b0, (tradesToCandles trades s).get? i0 = some b0 := by
              cases hx : (tradesToCandles trades s).get? i0 with
              | none => exact absurd (List.get?_eq_none.mp hx) (by omega)
              | some b0 => exact ⟨b0, rfl⟩
            have hchain : b.close = b0.close := by
              have hb' := hb
              have hb0' := hb0
              rw [hout_eq] at hb' hb0'
              exact fillLoop_synthetic_chain (s * 1000) (first :: rest)
                _ _ _ _ _ i0 b b0 hb' hb0' hbm
            by_cases hb0m : b0.timestamp ∈ (first :: rest).map Candle.timestamp
            · refine ⟨i0, b0, by omega, hb0, hb0m, ?_, hchain⟩
              intro k bk hk1 hk2 _
              exact absurd hk2 (by omega)
            · obtain ⟨j, b', hj, hgetj, hb'm, hbetween, hclose⟩ :=
                IH i0 (by omega) b0 hb0 hb0m
              refine ⟨j, b', by omega, hgetj, hb'm, ?_, by rw [hchain, hclose]⟩
              intro k bk hk1 hk2 hgetk
              by_cases hki : k < i0
              · exact hbetween k bk hk1 hki hgetk
              · have hk0 : k = i0 := by omega
                subst hk0
                have hbk : bk = b0 := by
                  rw [hgetk] at hb0
                  exact Option.some.inj hb0
                rw [hbk]
                exact hb0m
  obtain ⟨j, b', hj, hgetj, hb'm, hbetween, hclose⟩ := main i c hget hcm
  have hb'trades : ∃ t ∈ trades, bucketOf (s * 1000) t.1 = b'.timestamp := by
    have h0 := mem_ts_candlesWithTrades trades (s * 1000) b'.timestamp
    rw [hcwt] at h0
    obtain ⟨t, ht, hteq⟩ := List.mem_map.mp (h0.mp hb'm)
    exact ⟨t, ht, hteq⟩
  refine ⟨j, b', hj, hgetj, hb'trades, ?_, ?_, ?_, ?_, hclose, hflat.2.2.2⟩
  · intro k ck hk1 hk2 hgetk
    exact (htrans ck).mpr (hbetween k ck hk1 hk2 hgetk)
  · rw [hflat.1, hclose]
  · rw [hflat.2.1, hclose]
  · rw [hflat.2.2.1, hclose]

/-- Witness for C2 on a trade list with a gap: trades at buckets 0 and
120000 with timeframe 60 s leave bucket 60000 empty; its synthetic candle
carries forward close 10 from bucket 0. -/
theorem tradesToCandles_carry_forward_witness :
    ∃ (j : ℕ) (b : Candle ℤ), j < 1 ∧
      (tradesToCandles ([((0 : ℤ), (10 : ℤ), (1 : ℤ)),
          (120000, 20, 2)] : List (Trade ℤ)) 60).get? j = some b ∧
      (∃ t ∈ ([((0 : ℤ), (10 : ℤ), (1 : ℤ)), (120000, 20, 2)] :
          List (Trade ℤ)), bucketOf (60 * 1000) t.1 = b.timestamp) ∧
      (∀ (k : ℕ) (ck : Candle ℤ), j < k → k < 1 →
        (tradesToCandles ([((0 : ℤ), (10 : ℤ), (1 : ℤ)),
            (120000, 20, 2)] : List (Trade ℤ)) 60).get? k = some ck →
        ∀ t ∈ ([((0 : ℤ), (10 : ℤ), (1 : ℤ)), (120000, 20, 2)] :
            List (Trade ℤ)), bucketOf (60 * 1000) t.1 ≠ ck.timestamp) ∧
      (⟨60000, 10, 10, 10, 10, 0⟩ : Candle ℤ).open_ = b.close ∧
      (⟨60000, 10, 10, 10, 10, 0⟩ : Candle ℤ).high = b.close ∧
      (⟨60000, 10, 10, 10, 10, 0⟩ : Candle ℤ).low = b.close ∧
      (⟨60000, 10, 10, 10, 10, 0⟩ : Candle ℤ).close = b.close ∧
      (⟨60000, 10, 10, 10, 10, 0⟩ : Candle ℤ).volume = 0 :=
  tradesToCandles_carry_forward 60 (by decide)
    [((0 : ℤ), (10 : ℤ), (1 : ℤ)), (120000, 20, 2)] 1
    ⟨60000, 10, 10, 10, 10, 0⟩ (by decide) (by decide)

/-! ### Failover rotation facts -/

/-- One-step unfolding of the rotation loop. -/
theorem connectAttempts_succ (numNodes : ℕ) (succeeds : ℕ → Bool) (k : ℕ)
    (st : PoolConnState) :
    connectAttempts numNodes succeeds (k + 1) st
      = if succeeds st.currentNodeIndex then
          ({ st with
              activeInstance := some st.currentNodeIndex
              nodeHealth := fun i =>
                if i = st.currentNodeIndex then ⟨0, 0⟩
                else st.nodeHealth i },
            some st.currentNodeIndex)
        else
          connectAttempts numNodes succeeds k
            { st with
                currentNodeIndex := (st.currentNodeIndex + 1) % numNodes
                nodeHealth := fun i =>
                  if i = st.currentNodeIndex then
                    ⟨(st.nodeHealth i).errorCount + 1,
                      (st.nodeHealth i).consecutiveFailures + 1⟩
                  else st.nodeHealth i } := rfl

/-- A failed attempt advances the rotation by one modulo the node count and
hands the remaining budget to the advanced state. -/
theorem connectAttempts_fail_step (numNodes : ℕ) (succeeds : ℕ → Bool)
    (k : ℕ) (st : PoolConnState)
    (hfail : succeeds st.currentNodeIndex = false) :
    connectAttempts numNodes succeeds (k + 1) st
      = connectAttempts numNodes succeeds k
          { st with
              currentNodeIndex := (st.currentNodeIndex + 1) % numNodes
              nodeHealth := fun i =>
                if i = st.currentNodeIndex then
                  ⟨(st.nodeHealth i).errorCount + 1,
                    (st.nodeHealth i).consecutiveFailures + 1⟩
                else st.nodeHealth i } := by
  rw [connectAttempts_succ, if_neg (by rw [hfail]; simp)]

/-- C7: failover rotation is deterministic round-robin.  A successful
attempt leaves `currentNodeIndex` unchanged and binds the active instance
to it; a failed attempt advances the index by one modulo the endpoint
count; in general, if the first `j` endpoints in rotation order all fail
and the `(j+1)`-th connects, the pass ends with `currentNodeIndex` at that
endpoint and the instance bound to it.  In the concrete 3-endpoint pool
where endpoint 0 always fails and endpoint 1 succeeds, one pass starting at
index 0 ends at index 1 with the instance bound to endpoint 1, and — the
index persisting in the pool state across calls — a second pass stays at
endpoint 1. -/
theorem failover_round_robin :
    (∀ (numNodes : ℕ) (succeeds : ℕ → Bool) (k : ℕ) (st : PoolConnState),
      succeeds st.currentNodeIndex = true →
      (connectAttempts numNodes succeeds (k + 1) st).1.currentNodeIndex
          = st.currentNodeIndex ∧
      (connectAttempts numNodes succeeds (k + 1) st).1.activeInstance
          = some st.currentNodeIndex ∧
      (connectAttempts numNodes succeeds (k + 1) st).2
          = some st.currentNodeIndex) ∧
    (∀ (numNodes : ℕ) (succeeds : ℕ → Bool) (j k : ℕ) (st : PoolConnState),
      j ≤ k → st.currentNodeIndex < numNodes →
      (∀ m, m < j → succeeds ((st.currentNodeIndex + m) % numNodes) = false) →
      succeeds ((st.currentNodeIndex + j) % numNodes) = true →
      (connectAttempts numNodes succeeds (k + 1) st).1.currentNodeIndex
          = (st.currentNodeIndex + j) % numNodes ∧
      (connectAttempts numNodes succeeds (k + 1) st).1.activeInstance
          = some ((st.currentNodeIndex + j) % numNodes)) ∧
    ((connectToNextNodeInternal 3 (fun i => decide (i = 1))
        ⟨0, none, fun _ => ⟨0, 0⟩⟩).1.currentNodeIndex = 1 ∧
      (connectToNextNodeInternal 3 (fun i => decide (i = 1))
        ⟨0, none, fun _ => ⟨0, 0⟩⟩).1.activeInstance = some 1 ∧
      (connectToNextNodeInternal 3 (fun i => decide (i = 1))
        ⟨0, none, fun _ => ⟨0, 0⟩⟩).2 = some 1 ∧
      (connectToNextNodeInternal 3 (fun i => decide (i = 1))
        (connectToNextNodeInternal 3 (fun i => decide (i = 1))
          ⟨0, none, fun _ => ⟨0, 0⟩⟩).1).1.currentNodeIndex = 1 ∧
      (connectToNextNodeInternal 3 (fun i => decide (i = 1))
        (connectToNextNodeInternal 3 (fun i => decide (i = 1))
          ⟨0, none, fun _ => ⟨0, 0⟩⟩).1).1.activeInstance = some 1) := by
  refine ⟨?_, ?_, ?_⟩
  · intro numNodes succeeds k st hsucc
    rw [connectAttempts_succ, if_pos (by rw [hsucc])]
    exact ⟨rfl, rfl, rfl⟩
  · intro numNodes succeeds j
    induction j with
    | zero =>
        intro k st _ hlt _ hsucc
        rw [Nat.add_zero, Nat.mod_eq_of_lt hlt] at hsucc
        rw [connectAttempts_succ, if_pos (by rw [hsucc])]
        rw [Nat.add_zero, Nat.mod_eq_of_lt hlt]
        exact ⟨rfl, rfl⟩
    | succ j0 ih =>
        intro k st hjk hlt hfails hsucc
        rcases k with _ | k'
        · omega
        · have hfail0 : succeeds st.currentNodeIndex = false := by
            have h := hfails 0 (by omega)
            rwa [Nat.add_zero, Nat.mod_eq_of_lt hlt] at h
          rw [connectAttempts_fail_step numNodes succeeds (k' + 1) st hfail0]
          have harg : ∀ m : ℕ,
              ((st.currentNodeIndex + 1) % numNodes + m) % numNodes
                = (st.currentNodeIndex + (m + 1)) % numNodes := by
            intro m
            rw [Nat.mod_add_mod]
            congr 1
            omega
          have hidx : ((st.currentNodeIndex + 1) % numNodes) < numNodes :=
            Nat.mod_lt _ (by omega)
          have h2 := ih k'
            { st with
                currentNodeIndex := (st.currentNodeIndex + 1) % numNodes
                nodeHealth := fun i =>
                  if i = st.currentNodeIndex then
                    ⟨(st.nodeHealth i).errorCount + 1,
                      (st.nodeHealth i).consecutiveFailures + 1⟩
                  else st.nodeHealth i }
            (by omega) hidx
            (by
              intro m hm
              dsimp only
              rw [harg m]
              exact hfails (m + 1) (by omega))
            (by
              dsimp only
              rw [harg j0]
              exact hsucc)
          have h21 := h2.1
          have h22 := h2.2
          dsimp only at h21 h22
          rw [harg j0] at h21 h22
          exact ⟨h21, h22⟩
  · exact ⟨rfl, rfl, rfl, rfl, rfl⟩

/-- Witness for C7: the round-robin law applied to the concrete 3-endpoint
scenario (endpoint 0 fails, endpoint 1 succeeds, budget 3). -/
theorem failover_round_robin_witness :
    (connectAttempts 3 (fun i => decide (i = 1)) 3
        ⟨0, none, fun _ => ⟨0, 0⟩⟩).1.currentNodeIndex = (0 + 1) % 3 ∧
    (connectAttempts 3 (fun i => decide (i = 1)) 3
        ⟨0, none, fun _ => ⟨0, 0⟩⟩).1.activeInstance = some ((0 + 1) % 3) :=
  (failover_round_robin.2.1) 3 (fun i => decide (i = 1)) 1 2
    ⟨0, none, fun _ => ⟨0, 0⟩⟩ (by omega) (by decide)
    (by
      intro m hm
      have hm0 : m = 0 := by omega
      subst hm0
      decide) (by decide)

/-- C8: single-flight connect under the cooperative event loop.  When two
`getActiveInstance()` calls are issued while the pool is disconnected and
idle, exactly one connection attempt is started; both callers settle to the
same result, namely the attempt's instance on success and its error on
failure. -/
theorem singleFlight_two_callers (outcome : Except String ℕ) :
    (twoCallerScenario outcome).1 = 1 ∧
    (twoCallerScenario outcome).2.1 = (twoCallerScenario outcome).2.2 ∧
    (twoCallerScenario outcome).2.1 = outcome.map some := by
  cases outcome <;> exact ⟨rfl, rfl, rfl⟩

/-! ### Pagination facts -/

/-- C6: a transport-level failure at any reached page aborts the whole
drain with the wrapped connection error and returns none of the hits
already accumulated — pagination is all-or-nothing per invocation, in
contrast to the batch fetcher's best-effort merging. -/
theorem pagination_all_or_nothing (backend : ℕ → Except String EsPage)
    (flag : ℕ → Bool) (maxTotalResults k : ℕ) (allResults : List EsHit)
    (lastSortValue : Option (List ℤ)) (totalFetched : ℕ) (e : String)
    (hcap : totalFetched < maxTotalResults) (hflag : flag k = true)
    (herr : backend k = .error e) :
    queryElasticsearchWithPagination backend flag maxTotalResults k
        allResults lastSortValue totalFetched
      = (.error ("Failed to fetch from Elasticsearch: " ++ e), 1) := by
  rw [queryElasticsearchWithPagination.eq_def]
  rw [if_pos ⟨hcap, hflag⟩, herr]

/-- Witness for C6: a failing second-page fetch discards the page already
accumulated and fails the invocation. -/
theorem pagination_all_or_nothing_witness :
    queryElasticsearchWithPagination (fun _ => .error "boom")
        (fun _ => true) 1000000 1 [⟨[5]⟩] (some [3]) 7
      = (.error ("Failed to fetch from Elasticsearch: " ++ "boom"), 1) :=
  pagination_all_or_nothing (fun _ => .error "boom") (fun _ => true)
    1000000 1 [⟨[5]⟩] (some [3]) 7 "boom" (by omega) rfl rfl

/-- C5: the pagination drain terminates.  (a) If the first page reports
zero total hits, the drain returns `[]` immediately after that single
request.  (b) If the backend's page `k0` is short (fewer than
`CHUNK_SIZE` hits), any drain state at page `k ≤ k0` issues at most
`k0 + 1 - k` further page requests — finitely many.  (c) The drain stops
without issuing any request once the accumulated count reaches the cap or
the cancellation flag is false. -/
theorem pagination_terminates (backend : ℕ → Except String EsPage)
    (flag : ℕ → Bool) (maxTotalResults : ℕ) :
    (∀ hits : List EsHit, flag 0 = true → 0 < maxTotalResults →
      backend 0 = .ok ⟨0, hits⟩ →
      queryElasticsearchWithPagination backend flag maxTotalResults 0 []
        none 0 = (.ok [], 1)) ∧
    (∀ (k0 : ℕ) (p : EsPage), backend k0 = .ok p →
      p.hits.length < CHUNK_SIZE →
      ∀ (k : ℕ) (acc : List EsHit) (ls : Option (List ℤ)) (tot : ℕ),
        k ≤ k0 →
        (queryElasticsearchWithPagination backend flag maxTotalResults k acc
            ls tot).2 ≤ k0 + 1 - k) ∧
    (∀ (k : ℕ) (acc : List EsHit) (ls : Option (List ℤ)) (tot : ℕ),
      maxTotalResults ≤ tot ∨ flag k = false →
      queryElasticsearchWithPagination backend flag maxTotalResults k acc ls
        tot = (.ok acc, 0)) := by
  refine ⟨?_, ?_, ?_⟩
  · intro hits hf hm hb
    rw [queryElasticsearchWithPagination.eq_def]
    rw [if_pos ⟨hm, hf⟩, hb]
    dsimp only
    rw [if_pos ⟨rfl, rfl⟩]
  · intro k0 p hbk hshort
    suffices h : ∀ (d k : ℕ) (acc : List EsHit) (ls : Option (List ℤ))
        (tot : ℕ), k0 - k = d → k ≤ k0 →
        (queryElasticsearchWithPagination backend flag maxTotalResults k acc
            ls tot).2 ≤ k0 + 1 - k by
      intro k acc ls tot hk
      exact h (k0 - k) k acc ls tot rfl hk
    intro d
    induction d with
    | zero =>
        intro k acc ls tot hd hk
        have hkk : k = k0 := by omega
        subst hkk
        rw [queryElasticsearchWithPagination.eq_def]
        by_cases hg : tot < maxTotalResults ∧ flag k = true
        case neg => rw [if_neg hg]; dsimp only; omega
        rw [if_pos hg, hbk]
        dsimp only
        by_cases h0 : ls = none ∧ p.total = 0
        · rw [if_pos h0]; dsimp only; omega
        · rw [if_neg h0]
          rw [if_pos (Or.inl hshort)]
          dsimp only
          omega
    | succ d ihd =>
        intro k acc ls tot hd hk
        rw [queryElasticsearchWithPagination.eq_def]
        by_cases hg : tot < maxTotalResults ∧ flag k = true
        case neg => rw [if_neg hg]; dsimp only; omega
        rw [if_pos hg]
        cases hbe : backend k with
        | error e => dsimp only; omega
        | ok page =>
            dsimp only
            by_cases h0 : ls = none ∧ page.total = 0
            · rw [if_pos h0]; dsimp only; omega
            · rw [if_neg h0]
              by_cases hstop : page.hits.length < CHUNK_SIZE ∨
                  maxTotalResults ≤ tot + page.hits.length
              · rw [if_pos hstop]; dsimp only; omega
              · rw [if_neg hstop]
                dsimp only
                have hrec := ihd (k + 1) (acc ++ page.hits)
                  (some ((page.hits.getLastD ⟨[]⟩).sort))
                  (tot + page.hits.length) (by omega) (by omega)
                omega
  · intro k acc ls tot h
    rw [queryElasticsearchWithPagination.eq_def]
    rw [if_neg ?hn]
    case hn =>
      rintro ⟨h1, h2⟩
      rcases h with h | h
      · omega
      · rw [h] at h2; cases h2

/-- Witness for C5: a single short page stops the drain after one
request. -/
theorem pagination_terminates_witness :
    (queryElasticsearchWithPagination (fun _ => .ok ⟨5, [⟨[0]⟩]⟩)
        (fun _ => true) 1000000 0 [] none 0).2 ≤ 1 :=
  (pagination_terminates (fun _ => .ok ⟨5, [⟨[0]⟩]⟩) (fun _ => true)
      1000000).2.1 0 ⟨5, [⟨[0]⟩]⟩ rfl (by decide) 0 [] none 0 (by omega)

/-- C10: the result cap is checked only between pages.  Once the
accumulated count is at least `maxTotalResults` the drain issues no
further page request, returning the accumulated hits as they are; and
whenever every backend page carries at most `CHUNK_SIZE` hits, any `.ok`
result of the drain (started with a consistent accumulator) has length
strictly below `maxTotalResults + CHUNK_SIZE` — so the returned array may
exceed the cap, but never by a full chunk. -/
theorem pagination_cap_between_pages (backend : ℕ → Except String EsPage)
    (flag : ℕ → Bool) (maxTotalResults : ℕ) :
    (∀ (k : ℕ) (acc : List EsHit) (ls : Option (List ℤ)) (tot : ℕ),
      maxTotalResults ≤ tot →
      (queryElasticsearchWithPagination backend flag maxTotalResults k acc
          ls tot).2 = 0 ∧
      (queryElasticsearchWithPagination backend flag maxTotalResults k acc
          ls tot).1 = .ok acc) ∧
    ((∀ (k : ℕ) (p : EsPage), backend k = .ok p →
        p.hits.length ≤ CHUNK_SIZE) →
      ∀ (k : ℕ) (acc : List EsHit) (ls : Option (List ℤ)) (tot : ℕ)
        (hits : List EsHit), acc.length = tot →
        tot < maxTotalResults + CHUNK_SIZE →
        (queryElasticsearchWithPagination backend flag maxTotalResults k acc
            ls tot).1 = .ok hits →
        hits.length < maxTotalResults + CHUNK_SIZE) := by
  have hC : CHUNK_SIZE = 10000 := rfl
  constructor
  · intro k acc ls tot hge
    rw [queryElasticsearchWithPagination.eq_def]
    rw [if_neg (by rintro ⟨h1, _⟩; omega)]
    exact ⟨rfl, rfl⟩
  · intro hbnd
    suffices h : ∀ (d k : ℕ) (acc : List EsHit) (ls : Option (List ℤ))
        (tot : ℕ) (hits : List EsHit), maxTotalResults - tot = d →
        acc.length = tot → tot < maxTotalResults + CHUNK_SIZE →
        (queryElasticsearchWithPagination backend flag maxTotalResults k acc
            ls tot).1 = .ok hits →
        hits.length < maxTotalResults + CHUNK_SIZE by
      intro k acc ls tot hits h1 h2 h3
      exact h (maxTotalResults - tot) k acc ls tot hits rfl h1 h2 h3
    intro d
    induction d using Nat.strong_induction_on with
    | _ d ihd =>
        intro k acc ls tot hits hd hlen hcap hres
        rw [queryElasticsearchWithPagination.eq_def] at hres
        by_cases hg : tot < maxTotalResults ∧ flag k = true
        case neg =>
            rw [if_neg hg] at hres
            dsimp only at hres
            rw [Except.ok.injEq] at hres
            subst hres
            omega
        rw [if_pos hg] at hres
        cases hbe : backend k with
        | error e => rw [hbe] at hres; simp at hres
        | ok page =>
            rw [hbe] at hres
            dsimp only at hres
            have hple : page.hits.length ≤ CHUNK_SIZE := hbnd k page hbe
            by_cases h0 : ls = none ∧ page.total = 0
            · rw [if_pos h0] at hres
              dsimp only at hres
              rw [Except.ok.injEq] at hres
              subst hres
              simp only [List.length_nil]
              omega
            · rw [if_neg h0] at hres
              by_cases hstop : page.hits.length < CHUNK_SIZE ∨
                  maxTotalResults ≤ tot + page.hits.length
              · rw [if_pos hstop] at hres
                dsimp only at hres
                rw [Except.ok.injEq] at hres
                subst hres
                simp only [List.length_append]
                omega
              · rw [if_neg hstop] at hres
                dsimp only at hres
                rw [not_or, not_lt, not_le] at hstop
                exact ihd (maxTotalResults - (tot + page.hits.length))
                  (by omega) (k + 1) (acc ++ page.hits)
                  (some ((page.hits.getLastD ⟨[]⟩).sort))
                  (tot + page.hits.length) hits rfl
                  (by simp only [List.length_append]; omega) (by omega) hres

/-- Witness for C10: with the cap already reached, the drain issues no
request and returns the accumulator unchanged. -/
theorem pagination_cap_between_pages_witness :
    (queryElasticsearchWithPagination (fun _ => .ok ⟨1, []⟩)
        (fun _ => true) 5 0 [⟨[1]⟩, ⟨[2]⟩, ⟨[3]⟩, ⟨[4]⟩, ⟨[5]⟩, ⟨[6]⟩]
        none 6).2 = 0 ∧
    (queryElasticsearchWithPagination (fun _ => .ok ⟨1, []⟩)
        (fun _ => true) 5 0 [⟨[1]⟩, ⟨[2]⟩, ⟨[3]⟩, ⟨[4]⟩, ⟨[5]⟩, ⟨[6]⟩]
        none 6).1 = .ok [⟨[1]⟩, ⟨[2]⟩, ⟨[3]⟩, ⟨[4]⟩, ⟨[5]⟩, ⟨[6]⟩] :=
  (pagination_cap_between_pages (fun _ => .ok ⟨1, []⟩) (fun _ => true) 5).1
    0 [⟨[1]⟩, ⟨[2]⟩, ⟨[3]⟩, ⟨[4]⟩, ⟨[5]⟩, ⟨[6]⟩] none 6 (by omega)

/-! ### Batch fetcher facts -/

section BatchFetcherFacts

variable {Obj : Type}

theorem objLookup_objSet (m : List (String × Obj)) (k : String) (v : Obj)
    (k' : String) :
    objLookup (objSet m k v) k' = if k = k' then some v else objLookup m k' := by
  induction m with
  | nil =>
      by_cases h : k = k'
      · subst h; simp [objSet, objLookup]
      · simp [objSet, objLookup, h]
  | cons p rest ih =>
      rcases p with ⟨pk, pv⟩
      by_cases hp : pk = k
      · subst hp
        by_cases hk : pk = k'
        · subst hk; simp [objSet, objLookup]
        · simp [objSet, objLookup, hk]
      · by_cases hk2 : pk = k'
        · subst hk2
          have hkk : ¬ k = pk := fun h => hp h.symm
          simp [objSet, objLookup, hp, hkk]
        · simp [objSet, objLookup, hp, hk2, ih]

theorem objLookup_processEntries_not_mem (r : List (Option Obj)) :
    ∀ (chunk : List String) (m : List (String × Obj)) (idx : ℕ) (k : String),
      k ∉ chunk →
      objLookup (processEntries r m chunk idx) k = objLookup m k := by
  intro chunk
  induction chunk with
  | nil => intro m idx k _; rfl
  | cons objId rest ih =>
      intro m idx k hk
      have hkid : k ≠ objId := fun h => hk (h ▸ List.mem_cons_self _ _)
      have hkrest : k ∉ rest := fun h => hk (List.mem_cons_of_mem _ h)
      unfold processEntries
      cases hg : r.get? idx with
      | none => exact ih m (idx + 1) k hkrest
      | some o =>
          cases o with
          | none => exact ih m (idx + 1) k hkrest
          | some w =>
              rw [ih (objSet m objId w) (idx + 1) k hkrest]
              rw [objLookup_objSet, if_neg (fun h => hkid h.symm)]

theorem objLookup_processEntries_write (r : List (Option Obj)) :
    ∀ (chunk : List String) (m : List (String × Obj)) (idx j : ℕ)
      (k : String) (v : Obj), chunk.Nodup → chunk.get? j = some k →
      r.get? (idx + j) = some (some v) →
      objLookup (processEntries r m chunk idx) k = some v := by
  intro chunk
  induction chunk with
  | nil => intro m idx j k v _ hj _; simp at hj
  | cons objId rest ih =>
      intro m idx j k v hnd hj hr
      cases j with
      | zero =>
          simp only [List.get?] at hj
          cases hj
          rw [Nat.add_zero] at hr
          unfold processEntries
          rw [hr]
          rw [objLookup_processEntries_not_mem r rest _ _ _
            (List.nodup_cons.mp hnd).1]
          rw [objLookup_objSet, if_pos rfl]
      | succ j0 =>
          simp only [List.get?] at hj
          have hnd' := (List.nodup_cons.mp hnd).2
          have hr' : r.get? ((idx + 1) + j0) = some (some v) := by
            rw [show (idx + 1) + j0 = idx + (j0 + 1) from by omega]
            exact hr
          unfold processEntries
          cases hg : r.get? idx with
          | none => exact ih m (idx + 1) j0 k v hnd' hj hr'
          | some o =>
              cases o with
              | none => exact ih m (idx + 1) j0 k v hnd' hj hr'
              | some w => exact ih (objSet m objId w) (idx + 1) j0 k v hnd' hj hr'

theorem objLookup_processEntries_nowrite (r : List (Option Obj)) :
    ∀ (chunk : List String) (m : List (String × Obj)) (idx j : ℕ)
      (k : String), chunk.Nodup → chunk.get? j = some k →
      (∀ w : Obj, r.get? (idx + j) ≠ some (some w)) →
      objLookup (processEntries r m chunk idx) k = objLookup m k := by
  intro chunk
  induction chunk with
  | nil => intro m idx j k _ hj _; simp at hj
  | cons objId rest ih =>
      intro m idx j k hnd hj hnw
      cases j with
      | zero =>
          simp only [List.get?] at hj
          cases hj
          rw [Nat.add_zero] at hnw
          unfold processEntries
          cases hg : r.get? idx with
          | none =>
              exact objLookup_processEntries_not_mem r rest _ _ _
                (List.nodup_cons.mp hnd).1
          | some o =>
              cases o with
              | none =>
                  exact objLookup_processEntries_not_mem r rest _ _ _
                    (List.nodup_cons.mp hnd).1
              | some w => exact absurd hg (hnw w)
      | succ j0 =>
          simp only [List.get?] at hj
          have hnd' := (List.nodup_cons.mp hnd).2
          have hkrest : k ∈ rest := List.get?_mem hj
          have hkid : k ≠ objId := by
            intro h
            exact (List.nodup_cons.mp hnd).1 (h ▸ hkrest)
          have hnw' : ∀ w : Obj, r.get? ((idx + 1) + j0) ≠ some (some w) := by
            intro w
            rw [show (idx + 1) + j0 = idx + (j0 + 1) from by omega]
            exact hnw w
          unfold processEntries
          cases hg : r.get? idx with
          | none => exact ih m (idx + 1) j0 k hnd' hj hnw'
          | some o =>
              cases o with
              | none => exact ih m (idx + 1) j0 k hnd' hj hnw'
              | some w =>
                  rw [ih (objSet m objId w) (idx + 1) j0 k hnd' hj hnw']
                  rw [objLookup_objSet, if_neg (fun h => hkid h.symm)]

theorem objLookup_processChunk_not_mem
    (backend : List String → Except String (List (Option Obj)))
    (m : List (String × Obj)) (c : List String) (k : String) (hk : k ∉ c) :
    objLookup (processChunk backend m c) k = objLookup m k := by
  unfold processChunk
  cases hb : backend c with
  | error e => rfl
  | ok r => exact objLookup_processEntries_not_mem r c m 0 k hk

theorem objLookup_foldl_not_mem
    (backend : List String → Except String (List (Option Obj))) :
    ∀ (chunksL : List (List String)) (m : List (String × Obj)) (k : String),
      (∀ c ∈ chunksL, k ∉ c) →
      objLookup (chunksL.foldl (processChunk backend) m) k
        = objLookup m k := by
  intro chunksL
  induction chunksL with
  | nil => intro m k _; rfl
  | cons c cs ih =>
      intro m k h
      rw [List.foldl_cons]
      rw [ih _ k (fun c' hc' => h c' (List.mem_cons_of_mem _ hc'))]
      exact objLookup_processChunk_not_mem backend m c k
        (h c (List.mem_cons_self _ _))

theorem chunks90F_eq : ∀ (f1 f2 : ℕ) (ids : List String),
    ids.length ≤ f1 → ids.length ≤ f2 → chunks90F f1 ids = chunks90F f2 ids := by
  intro f1
  induction f1 with
  | zero =>
      intro f2 ids h1 _
      have hids : ids = [] := List.length_eq_zero.mp (by omega)
      subst hids
      cases f2 <;> rfl
  | succ f1 ih =>
      intro f2 ids h1 h2
      cases ids with
      | nil => cases f2 <;> rfl
      | cons x t =>
          cases f2 with
          | zero => simp at h2
          | succ f2' =>
              show (x :: t).take 90 :: chunks90F f1 ((x :: t).drop 90)
                = (x :: t).take 90 :: chunks90F f2' ((x :: t).drop 90)
              congr 1
              apply ih
              · simp only [List.length_drop, List.length_cons] at *
                omega
              · simp only [List.length_drop, List.length_cons] at *
                omega

theorem chunks90_cons (x : String) (t : List String) :
    chunks90 (x :: t)
      = (x :: t).take 90 :: chunks90 ((x :: t).drop 90) := by
  show chunks90F (x :: t).length (x :: t) = _
  rw [show (x :: t).length = t.length + 1 from rfl]
  rw [show chunks90F (t.length + 1) (x :: t)
      = (x :: t).take 90 :: chunks90F t.length ((x :: t).drop 90) from rfl]
  congr 1
  apply chunks90F_eq
  · simp only [List.length_drop, List.length_cons]
    omega
  · exact le_refl _

theorem chunks90_length : ∀ (n : ℕ) (ids : List String), ids.length ≤ n →
    (chunks90 ids).length = (ids.length + 89) / 90 := by
  intro n
  induction n with
  | zero =>
      intro ids h
      have hids : ids = [] := List.length_eq_zero.mp (by omega)
      subst hids
      rfl
  | succ n ih =>
      intro ids h
      cases ids with
      | nil => rfl
      | cons x t =>
          rw [chunks90_cons]
          simp only [List.length_cons]
          rw [ih ((x :: t).drop 90)
            (by simp only [List.length_drop, List.length_cons] at h ⊢; omega)]
          simp only [List.length_drop, List.length_cons]
          omega

theorem chunks90_sub : ∀ (n : ℕ) (ids : List String), ids.length ≤ n →
    ∀ c ∈ chunks90 ids, ∀ x ∈ c, x ∈ ids := by
  intro n
  induction n with
  | zero =>
      intro ids h c hc
      have hids : ids = [] := List.length_eq_zero.mp (by omega)
      subst hids
      simp [chunks90, chunks90F] at hc
  | succ n ih =>
      intro ids h c hc x hx
      cases ids with
      | nil => simp [chunks90, chunks90F] at hc
      | cons y t =>
          rw [chunks90_cons] at hc
          rcases List.mem_cons.mp hc with rfl | hcr
          · exact List.take_subset 90 (y :: t) hx
          · exact List.drop_subset 90 (y :: t)
              (ih ((y :: t).drop 90)
                (by simp only [List.length_drop, List.length_cons] at h ⊢; omega)
                c hcr x hx)

theorem objLookup_fold_chunks_write
    (backend : List String → Except String (List (Option Obj))) :
    ∀ (n : ℕ) (ids : List String), ids.length ≤ n → ids.Nodup →
      ∀ (m : List (String × Obj)) (c : List String) (j : ℕ)
        (r : List (Option Obj)) (k : String) (v : Obj),
        c ∈ chunks90 ids → c.get? j = some k → backend c = .ok r →
        r.get? j = some (some v) →
        objLookup ((chunks90 ids).foldl (processChunk backend) m) k
          = some v := by
  intro n
  induction n with
  | zero =>
      intro ids hlen _ m c j r k v hc _ _ _
      have hids : ids = [] := List.length_eq_zero.mp (by omega)
      subst hids
      simp [chunks90, chunks90F] at hc
  | succ n ih =>
      intro ids hlen hnd m c j r k v hc hj hb hr
      cases ids with
      | nil => simp [chunks90, chunks90F] at hc
      | cons x t =>
          rw [chunks90_cons] at hc ⊢
          rw [List.foldl_cons]
          have hsplit : ((x :: t).take 90).Nodup ∧
              ((x :: t).drop 90).Nodup ∧
              List.Disjoint ((x :: t).take 90) ((x :: t).drop 90) := by
            have h1 := hnd
            rw [← List.take_append_drop 90 (x :: t), List.nodup_append] at h1
            exact h1
          rcases List.mem_cons.mp hc with rfl | hcr
          · have hkc : k ∈ (x :: t).take 90 := List.get?_mem hj
            have hknotdrop : k ∉ (x :: t).drop 90 := fun hkd =>
              hsplit.2.2 hkc hkd
            rw [objLookup_foldl_not_mem backend _ _ k (fun c' hc' hkc' =>
              hknotdrop (chunks90_sub ((x :: t).drop 90).length
                ((x :: t).drop 90) (le_refl _) c' hc' k hkc'))]
            unfold processChunk
            rw [hb]
            exact objLookup_processEntries_write r _ m 0 j k v hsplit.1 hj
              (by rw [Nat.zero_add]; exact hr)
          · exact ih ((x :: t).drop 90)
              (by simp only [List.length_drop, List.length_cons] at hlen ⊢
                  omega)
              hsplit.2.1 (processChunk backend m ((x :: t).take 90))
              c j r k v hcr hj hb hr

theorem objLookup_fold_chunks_err
    (backend : List String → Except String (List (Option Obj))) :
    ∀ (n : ℕ) (ids : List String), ids.length ≤ n → ids.Nodup →
      ∀ (m : List (String × Obj)) (c : List String) (j : ℕ) (e : String)
        (k : String),
        c ∈ chunks90 ids → c.get? j = some k → backend c = .error e →
        objLookup ((chunks90 ids).foldl (processChunk backend) m) k
          = objLookup m k := by
  intro n
  induction n with
  | zero =>
      intro ids hlen _ m c j e k hc _ _
      have hids : ids = [] := List.length_eq_zero.mp (by omega)
      subst hids
      simp [chunks90, chunks90F] at hc
  | succ n ih =>
      intro ids hlen hnd m c j e k hc hj hb
      cases ids with
      | nil => simp [chunks90, chunks90F] at hc
      | cons x t =>
          rw [chunks90_cons] at hc ⊢
          rw [List.foldl_cons]
          have hsplit : ((x :: t).take 90).Nodup ∧
              ((x :: t).drop 90).Nodup ∧
              List.Disjoint ((x :: t).take 90) ((x :: t).drop 90) := by
            have h1 := hnd
            rw [← List.take_append_drop 90 (x :: t), List.nodup_append] at h1
            exact h1
          rcases List.mem_cons.mp hc with rfl | hcr
          · have hkc : k ∈ (x :: t).take 90 := List.get?_mem hj
            have hknotdrop : k ∉ (x :: t).drop 90 := fun hkd =>
              hsplit.2.2 hkc hkd
            rw [objLookup_foldl_not_mem backend _ _ k (fun c' hc' hkc' =>
              hknotdrop (chunks90_sub ((x :: t).drop 90).length
                ((x :: t).drop 90) (le_refl _) c' hc' k hkc'))]
            unfold processChunk
            rw [hb]
          · have hk_in_drop : k ∈ (x :: t).drop 90 :=
              chunks90_sub ((x :: t).drop 90).length ((x :: t).drop 90)
                (le_refl _) c hcr k (List.get?_mem hj)
            have hknot_take : k ∉ (x :: t).take 90 := fun hkt =>
              hsplit.2.2 hkt hk_in_drop
            rw [ih ((x :: t).drop 90)
              (by simp only [List.length_drop, List.length_cons] at hlen ⊢
                  omega)
              hsplit.2.1 (processChunk backend m ((x :: t).take 90))
              c j e k hcr hj hb]
            exact objLookup_processChunk_not_mem backend m _ k hknot_take

theorem objLookup_fold_chunks_nowrite
    (backend : List String → Except String (List (Option Obj))) :
    ∀ (n : ℕ) (ids : List String), ids.length ≤ n → ids.Nodup →
      ∀ (m : List (String × Obj)) (c : List String) (j : ℕ)
        (r : List (Option Obj)) (k : String),
        c ∈ chunks90 ids → c.get? j = some k → backend c = .ok r →
        (∀ w : Obj, r.get? j ≠ some (some w)) →
        objLookup ((chunks90 ids).foldl (processChunk backend) m) k
          = objLookup m k := by
  intro n
  induction n with
  | zero =>
      intro ids hlen _ m c j r k hc _ _ _
      have hids : ids = [] := List.length_eq_zero.mp (by omega)
      subst hids
      simp [chunks90, chunks90F] at hc
  | succ n ih =>
      intro ids hlen hnd m c j r k hc hj hb hnw
      cases ids with
      | nil => simp [chunks90, chunks90F] at hc
      | cons x t =>
          rw [chunks90_cons] at hc ⊢
          rw [List.foldl_cons]
          have hsplit : ((x :: t).take 90).Nodup ∧
              ((x :: t).drop 90).Nodup ∧
              List.Disjoint ((x :: t).take 90) ((x :: t).drop 90) := by
            have h1 := hnd
            rw [← List.take_append_drop 90 (x :: t), List.nodup_append] at h1
            exact h1
          rcases List.mem_cons.mp hc with rfl | hcr
          · have hkc : k ∈ (x :: t).take 90 := List.get?_mem hj
            have hknotdrop : k ∉ (x :: t).drop 90 := fun hkd =>
              hsplit.2.2 hkc hkd
            rw [objLookup_foldl_not_mem backend _ _ k (fun c' hc' hkc' =>
              hknotdrop (chunks90_sub ((x :: t).drop 90).length
                ((x :: t).drop 90) (le_refl _) c' hc' k hkc'))]
            unfold processChunk
            rw [hb]
            exact objLookup_processEntries_nowrite r _ m 0 j k hsplit.1 hj
              (by intro w; rw [Nat.zero_add]; exact hnw w)
          · have hk_in_drop : k ∈ (x :: t).drop 90 :=
              chunks90_sub ((x :: t).drop 90).length ((x :: t).drop 90)
                (le_refl _) c hcr k (List.get?_mem hj)
            have hknot_take : k ∉ (x :: t).take 90 := fun hkt =>
              hsplit.2.2 hkt hk_in_drop
            rw [ih ((x :: t).drop 90)
              (by simp only [List.length_drop, List.length_cons] at hlen ⊢
                  omega)
              hsplit.2.1 (processChunk backend m ((x :: t).take 90))
              c j r k hcr hj hb hnw]
            exact objLookup_processChunk_not_mem backend m _ k hknot_take

end BatchFetcherFacts

/-- C4: for every identifier list without duplicates, `getObjects` issues
exactly `ceil(N/90)` underlying chunked calls (one per chunk, and
`(chunks90 ids).length = (N + 89) / 90`); a failing chunk call does not
disturb the other chunks; and the returned mapping contains exactly those
ids whose chunk call succeeded and whose entry in the chunk result exists
and is non-null, each mapped to that entry. -/
theorem getObjects_spec {Obj : Type}
    (backend : List String → Except String (List (Option Obj)))
    (ids : List String) (hnd : ids.Nodup) :
    (chunks90 ids).length = (ids.length + 89) / 90 ∧
    ∀ (k : String) (v : Obj),
      objLookup (getObjects backend ids) k = some v ↔
        ∃ c ∈ chunks90 ids, ∃ (j : ℕ) (r : List (Option Obj)),
          c.get? j = some k ∧ backend c = .ok r ∧
            r.get? j = some (some v) := by
  constructor
  · exact chunks90_length ids.length ids (le_refl _)
  · intro k v
    constructor
    · intro hlk
      by_cases hkin : ∃ c ∈ chunks90 ids, k ∈ c
      · obtain ⟨c, hc, hkc⟩ := hkin
        obtain ⟨j, hj⟩ := List.get?_of_mem hkc
        cases hb : backend c with
        | error e =>
            unfold getObjects at hlk
            rw [objLookup_fold_chunks_err backend ids.length ids (le_refl _)
              hnd [] c j e k hc hj hb] at hlk
            simp [objLookup] at hlk
        | ok r =>
            cases hw : r.get? j with
            | some o =>
                cases o with
                | some w =>
                    unfold getObjects at hlk
                    rw [objLookup_fold_chunks_write backend ids.length ids
                      (le_refl _) hnd [] c j r k w hc hj hb hw] at hlk
                    cases hlk
                    exact ⟨c, hc, j, r, hj, hb, hw⟩
                | none =>
                    unfold getObjects at hlk
                    rw [objLookup_fold_chunks_nowrite backend ids.length ids
                      (le_refl _) hnd [] c j r k hc hj hb
                      (by intro w hcon; rw [hw] at hcon; cases hcon)] at hlk
                    simp [objLookup] at hlk
            | none =>
                unfold getObjects at hlk
                rw [objLookup_fold_chunks_nowrite backend ids.length ids
                  (le_refl _) hnd [] c j r k hc hj hb
                  (by intro w hcon; rw [hw] at hcon; cases hcon)] at hlk
                simp [objLookup] at hlk
      · push_neg at hkin
        unfold getObjects at hlk
        rw [objLookup_foldl_not_mem backend (chunks90 ids) [] k hkin] at hlk
        simp [objLookup] at hlk
    · rintro ⟨c, hc, j, r, hj, hb, hr⟩
      unfold getObjects
      exact objLookup_fold_chunks_write backend ids.length ids (le_refl _)
        hnd [] c j r k v hc hj hb hr

/-- Witness for C4 on a concrete two-id list with one single chunk. -/
theorem getObjects_spec_witness :
    (chunks90 ["a", "b"]).length = (2 + 89) / 90 ∧
    (objLookup (getObjects (fun _ : List String =>
        (Except.ok [some (1 : ℕ), some 2] :
          Except String (List (Option ℕ)))) ["a", "b"]) "a" = some 1 ↔
      ∃ c ∈ chunks90 ["a", "b"], ∃ (j : ℕ) (r : List (Option ℕ)),
        c.get? j = some "a" ∧
          (fun _ : List String =>
            (Except.ok [some (1 : ℕ), some 2] :
              Except String (List (Option ℕ)))) c = .ok r ∧
          r.get? j = some (some 1)) :=
  ⟨(getObjects_spec (fun _ : List String =>
      (Except.ok [some (1 : ℕ), some 2] :
        Except String (List (Option ℕ)))) ["a", "b"] (by decide)).1,
    (getObjects_spec (fun _ : List String =>
      (Except.ok [some (1 : ℕ), some 2] :
        Except String (List (Option ℕ)))) ["a", "b"] (by decide)).2 "a" 1⟩
